import Mathlib

/-!
Verification development for the screenplay layout parser of the
`kb-assistant-challenge` repository (`kbac/loaders/matrix_script_loader.py`).

The parser is embedded shallowly: text is `List Char`, the Python regular
expression calls are modelled by explicit backtracking matchers specialised
to the three fixed patterns of the source, pydantic model construction is a
fallible `Except` computation, and the page/aggregation/contextualization
passes are direct functional translations of the source.
-/

namespace KBAC

/-- Whitespace character class of the loader's regular expressions and of
Python string stripping, on the character range handled here. -/
def pyIsSpace (c : Char) : Bool :=
  c == ' ' || c == '\t' || c == '\n' || c == '\r' || c == '\x0b' || c == '\x0c'

/-- Decimal digit character class of the loader's regular expressions. -/
def pyIsDigit (c : Char) : Bool := '0' ≤ c && c ≤ '9'

/-- A cased letter, for the purposes of the upper-case test. -/
def casedChar (c : Char) : Bool := ('A' ≤ c && c ≤ 'Z') || ('a' ≤ c && c ≤ 'z')

/-- Python-style upper-case test on a line: there is at least one cased
character and every cased character is upper-case. -/
def pyIsUpperList (l : List Char) : Bool :=
  l.any casedChar && l.all (fun c => !casedChar c || ('A' ≤ c && c ≤ 'Z'))

/-- Python-style strip: remove whitespace from both ends. -/
def pyStrip (l : List Char) : List Char :=
  ((l.dropWhile pyIsSpace).reverse.dropWhile pyIsSpace).reverse

/-- Python substring test: the needle occurs contiguously in the haystack. -/
def pyContains (hay needle : List Char) : Bool :=
  hay.tails.any (fun suf => needle.isPrefixOf suf)

/-- Classification kinds of the loader's `LineItem` pydantic model. -/
inductive TextType where
  | location
  | description
  | character
  | dialog
deriving DecidableEq, Repr

/-- The `LineItem` pydantic model: one classified line. -/
structure LineItem where
  pageNumber : Nat
  textType : TextType
  text : List Char
  margin : Nat
deriving DecidableEq, Repr

/-- Python exceptions that the loader's core can raise. -/
inductive PyError where
  | validationError
  | assertionError
  | indexError
deriving DecidableEq, Repr

/-- Construction of a `LineItem` through pydantic validation: `text` is a
string of minimum length 1 and `margin` is a positive integer (the page
number is a natural number by type). -/
def mkLineItem (page : Nat) (tt : TextType) (text : List Char) (margin : Nat) :
    Except PyError LineItem :=
  if 1 ≤ text.length ∧ 1 ≤ margin then .ok ⟨page, tt, text, margin⟩
  else .error .validationError

/-- The loader's constructor configuration. -/
structure Config where
  ignoreadTags : List (List Char)
  locationMargins : List Nat
  descriptionMargins : List Nat
  dialogMargins : List Nat
  characterMargins : List Nat
  startPage : Option Int
  endPage : Option Int
  showNoMatchedTexts : Bool
deriving DecidableEq, Repr

/-- The default configuration of `MatrixScriptLoader.__init__`. -/
def defaultCfg : Config where
  ignoreadTags :=
    ["FADE IN:", "CONTINUED", "OMITTED", "THE MATRIX - Rev.", "FADE OUT.",
     "THE END", "(MORE)", "FADE TO BLACK."].map String.toList
  locationMargins := [8, 9]
  descriptionMargins := [8, 9]
  dialogMargins := [21, 30]
  characterMargins := [32, 38, 39]
  startPage := some 1
  endPage := none
  showNoMatchedTexts := false

/-!  The location pattern.

`regex.match` with pattern `([AB]?\d+\s{2,})(.*?)(\s{2,}[AB]?\d+$)` is
modelled by an explicit backtracking search in the engine's order: the
optional letter prefers the consumed alternative, the greedy pieces try
longer matches first, the lazy middle tries shorter matches first, and the
dot does not match a newline two. -/

/-- The `$` anchor: end of the string, or just before a trailing newline. -/
def atDollar (l : List Char) : Bool := l == [] || l == ['\n']

/-- Backtracking loop for greedy `\d+` followed by `$`: try `k` digits,
then fewer, down to one digit. -/
def digitsEndLoop (l : List Char) : Nat → Bool
  | 0 => false
  | k + 1 => atDollar (l.drop (k + 1)) || digitsEndLoop l k

/-- Matcher for `\d+$`, starting from the maximal digit run. -/
def digitsEnd (l : List Char) : Bool :=
  digitsEndLoop l (l.takeWhile pyIsDigit).length

/-- Matcher for `[AB]?\d+$`: the alternative consuming the letter is tried
first, then the empty alternative. -/
def optLetterDigitsEnd : List Char → Bool
  | [] => false
  | c :: rest =>
    if c == 'A' || c == 'B' then digitsEnd rest || digitsEnd (c :: rest)
    else digitsEnd (c :: rest)

/-- Backtracking loop for greedy `\s{2,}` followed by `[AB]?\d+$`: try `k`
whitespace characters, then fewer, down to two. -/
def tailLoop (l : List Char) : Nat → Bool
  | 0 => false
  | k + 1 => (decide (2 ≤ k + 1) && optLetterDigitsEnd (l.drop (k + 1))) || tailLoop l k

/-- Matcher for the third group `\s{2,}[AB]?\d+$`, starting from the
maximal whitespace run. -/
def tailMatch (l : List Char) : Bool :=
  tailLoop l (l.takeWhile pyIsSpace).length

/-- Lazy scan for `(.*?)` before the third group: try the shortest middle
first, extending one character at a time; the dot cannot consume a newline.
`pre` holds the reversed middle consumed so far; returns the pair of the
first and second captured groups. -/
def midScan (g1 pre after : List Char) : Option (List Char × List Char) :=
  if tailMatch after then some (g1, pre.reverse)
  else
    match after with
    | [] => none
    | c :: rest => if c == '\n' then none else midScan g1 (c :: pre) rest

/-- One attempt of the first group's `\s{2,}` with exactly `k` whitespace
characters: `stem` is the part of group one before the whitespace and
`rest` starts at the whitespace run. -/
def spacesAttempt (stem rest : List Char) (k : Nat) : Option (List Char × List Char) :=
  midScan (stem ++ rest.take k) [] (rest.drop k)

/-- Backtracking loop for the first group's greedy `\s{2,}`: try `k`
whitespace characters, then fewer, down to two. -/
def spacesLoop (stem rest : List Char) : Nat → Option (List Char × List Char)
  | 0 => none
  | k + 1 =>
    if 2 ≤ k + 1 then
      match spacesAttempt stem rest (k + 1) with
      | some r => some r
      | none => spacesLoop stem rest k
    else none

/-- One attempt of the first group's greedy `\d+` with exactly `d` digits,
`rest` starting at the digit run. -/
def digitsAttempt (letter rest : List Char) (d : Nat) : Option (List Char × List Char) :=
  spacesLoop (letter ++ rest.take d) (rest.drop d)
    ((rest.drop d).takeWhile pyIsSpace).length

/-- Backtracking loop for the first group's greedy `\d+`: try `d` digits,
then fewer, down to one. -/
def digitsLoop (letter rest : List Char) : Nat → Option (List Char × List Char)
  | 0 => none
  | d + 1 =>
    match digitsAttempt letter rest (d + 1) with
    | some r => some r
    | none => digitsLoop letter rest d

/-- Anchored match of `([AB]?\d+\s{2,})(.*?)(\s{2,}[AB]?\d+$)` against the
line, returning the first two captured groups; the optional leading letter
prefers the consumed alternative. -/
def locGroups (l : List Char) : Option (List Char × List Char) :=
  match l with
  | [] => none
  | c :: rest =>
    if c == 'A' || c == 'B' then
      match digitsLoop [c] rest (rest.takeWhile pyIsDigit).length with
      | some r => some r
      | none => digitsLoop [] l (l.takeWhile pyIsDigit).length
    else digitsLoop [] l (l.takeWhile pyIsDigit).length

/-- `_get_location_text`: upper-case lines whose bracketing pattern matches
and whose first-group length lies in the configured location margins. -/
def getLocationText (cfg : Config) (lineText : List Char) : Option (List Char × Nat) :=
  if !pyIsUpperList lineText then none
  else
    match locGroups lineText with
    | none => none
    | some (g1, g2) =>
      if g1.length ∈ cfg.locationMargins then some (pyStrip g2, g1.length) else none

/-- Anchored match of `(\s{2,})(.*)`: the greedy leading whitespace run of
length at least two, and the rest of the line up to a newline. -/
def leadSpacesRemainder (l : List Char) : Option (List Char × List Char) :=
  if 2 ≤ (l.takeWhile pyIsSpace).length then
    some (l.takeWhile pyIsSpace,
      (l.drop (l.takeWhile pyIsSpace).length).takeWhile (fun c => c != '\n'))
  else none

/-- Index of the last `)` in the list, if any. -/
def lastCloserIdx : List Char → Option Nat
  | [] => none
  | c :: rest =>
    match lastCloserIdx rest with
    | some q => some (q + 1)
    | none => if c == ')' then some 0 else none

/-- Fuelled scan of `regex.sub` with pattern `\(.*\)` and empty
replacement: at an opening parenthesis with a closing parenthesis later on
the same line, the greedy dot extends the match to the last such closing
parenthesis; the span is dropped and scanning resumes after it. -/
def stripParensGo : Nat → List Char → List Char
  | 0, l => l
  | _ + 1, [] => []
  | fuel + 1, c :: rest =>
    if c == '(' then
      match lastCloserIdx (rest.takeWhile (fun ch => ch != '\n')) with
      | some q => stripParensGo fuel (rest.drop (q + 1))
      | none => c :: stripParensGo fuel rest
    else c :: stripParensGo fuel rest

/-- `regex.sub(r"\(.*\)", "", l)`: the fuel is the length of the list,
which the scan never exhausts. -/
def stripParens (l : List Char) : List Char := stripParensGo l.length l

/-- `_get_character_text`: upper-case lines with a leading whitespace run
in the configured character margins; parenthetical annotations are removed
from the remainder, which is then stripped.  (The source also tests
`line_text.endswith("")`, which is true of every string.) -/
def getCharacterText (cfg : Config) (lineText : List Char) : Option (List Char × Nat) :=
  if !pyIsUpperList lineText then none
  else
    match leadSpacesRemainder lineText with
    | none => none
    | some (sp, rem) =>
      if sp.length ∈ cfg.characterMargins then
        some (pyStrip (stripParens rem), sp.length)
      else none

/-- `_get_non_upper_text`: a leading whitespace run in the given margins;
the stripped remainder is returned with the run length. -/
def getNonUpperText (margins : List Nat) (lineText : List Char) : Option (List Char × Nat) :=
  match leadSpacesRemainder lineText with
  | none => none
  | some (sp, rem) =>
    if sp.length ∈ margins then some (pyStrip rem, sp.length) else none

/-- `_get_description_text`. -/
def getDescriptionText (cfg : Config) (lineText : List Char) : Option (List Char × Nat) :=
  getNonUpperText cfg.descriptionMargins lineText

/-- `_get_dialog_text`. -/
def getDialogText (cfg : Config) (lineText : List Char) : Option (List Char × Nat) :=
  getNonUpperText cfg.dialogMargins lineText

/-- `_parse_page_line`: drop lines containing an ignore tag, then try the
location, character, description and dialog tests in order, building the
`LineItem` through pydantic validation; an unmatched line yields no item
(the diagnostic print of `show_no_matched_texts` does not affect the
result). -/
def parsePageLine (cfg : Config) (lineText : List Char) (pageNumber : Nat) :
    Except PyError (Option LineItem) :=
  if cfg.ignoreadTags.any (fun tag => pyContains lineText tag) then .ok none
  else
    match getLocationText cfg lineText with
    | some (t, m) => (mkLineItem pageNumber .location t m).map some
    | none =>
      match getCharacterText cfg lineText with
      | some (t, m) => (mkLineItem pageNumber .character t m).map some
      | none =>
        match getDescriptionText cfg lineText with
        | some (t, m) => (mkLineItem pageNumber .description t m).map some
        | none =>
          match getDialogText cfg lineText with
          | some (t, m) => (mkLineItem pageNumber .dialog t m).map some
          | none => .ok none

/-- Python `text.split("\n")` on a list of characters. -/
def splitLines : List Char → List (List Char)
  | [] => [[]]
  | c :: rest =>
    if c == '\n' then [] :: splitLines rest
    else
      match splitLines rest with
      | [] => [[c]]
      | l :: ls => (c :: l) :: ls

/-- Left-to-right effectful map over `Except`, as the page-line generator
is consumed: the first raised error aborts the whole computation. -/
def mapMExcept (f : α → Except PyError β) : List α → Except PyError (List β)
  | [] => .ok []
  | a :: as =>
    match f a with
    | .error e => .error e
    | .ok b =>
      match mapMExcept f as with
      | .error e => .error e
      | .ok bs => .ok (b :: bs)

/-- The start-page window test of `parse_page`. -/
def beforeWindow (cfg : Config) (pageNumber : Nat) : Bool :=
  match cfg.startPage with
  | some s => decide ((pageNumber : Int) < s)
  | none => false

/-- The end-page window test of `parse_page`. -/
def afterWindow (cfg : Config) (pageNumber : Nat) : Bool :=
  match cfg.endPage with
  | some e => decide (e < (pageNumber : Int))
  | none => false

/-- `parse_page`: pages outside the configured window contribute nothing;
otherwise every line of the page text is classified in order and the
unclassified lines are dropped. -/
def parsePage (cfg : Config) (pageNumber : Nat) (pageText : List Char) :
    Except PyError (List LineItem) :=
  if beforeWindow cfg pageNumber then .ok []
  else if afterWindow cfg pageNumber then .ok []
  else
    match mapMExcept (fun l => parsePageLine cfg l pageNumber) (splitLines pageText) with
    | .error e => .error e
    | .ok opts => .ok (opts.filterMap id)

/-- The `itertools.groupby` key of the aggregation pass. -/
def aggKey (li : LineItem) : TextType × Nat := (li.textType, li.margin)

/-- `itertools.groupby` by `aggKey`: split into maximal runs of
consecutive records with equal key, preserving order. -/
def groupRuns (l : List LineItem) : List (List LineItem) :=
  l.foldr
    (fun x gs =>
      match gs with
      | [] => [[x]]
      | g :: rest =>
        match g with
        | [] => [x] :: rest
        | y :: _ => if aggKey x = aggKey y then (x :: g) :: rest else [x] :: g :: rest)
    []

/-- `_agg_line_groups`: a one-member group passes through; a multi-member
group of location or character kind trips the assertion; otherwise the
texts are joined with single spaces and the first member supplies the page
number, kind and margin, through pydantic validation.  (Python raises an
IndexError on an empty group, which `groupby` never produces.) -/
def aggLineGroups (g : List LineItem) : Except PyError LineItem :=
  match g with
  | [x] => .ok x
  | [] => .error .indexError
  | x :: _ :: _ =>
    if x.textType = .location ∨ x.textType = .character then .error .assertionError
    else mkLineItem x.pageNumber x.textType (List.intercalate [' '] (g.map (·.text))) x.margin

/-- The aggregation pass of `load`: group, then collapse each group. -/
def aggregate (l : List LineItem) : Except PyError (List LineItem) :=
  mapMExcept aggLineGroups (groupRuns l)

/-- Collapse of one maximal run, written from the specification's words: a
run of size one passes through unchanged, a larger run becomes one record
whose text is the members' texts joined by single spaces and whose page
number, kind and margin equal the first member's.  (Runs are never empty;
the empty case is arbitrary.) -/
def specCollapse : List LineItem → LineItem
  | [] => ⟨0, .description, [], 0⟩
  | [x] => x
  | x :: y :: rest =>
    ⟨x.pageNumber, x.textType, List.intercalate [' '] ((x :: y :: rest).map (·.text)), x.margin⟩

/-- The metadata bag attached to an output document. -/
structure Metadata where
  textType : List Char
  sceneDescriptionId : Option (List Char)
  character : Option (List Char)
  location : Option (List Char)
  pageNumber : Nat
  lineNumber : Nat
deriving DecidableEq, Repr

/-- The `Document` pydantic model produced by `load`. -/
structure Document where
  text : List Char
  metadata : Metadata
deriving DecidableEq, Repr

/-- The three running variables of the contextualization loop of `load`. -/
structure CtxState where
  location : Option (List Char)
  sceneDescriptionId : Option (List Char)
  character : Option (List Char)
deriving DecidableEq, Repr

/-- The initial state of the contextualization loop. -/
def initCtx : CtxState := ⟨none, none, none⟩

/-- One iteration of the contextualization loop of `load` at 1-based index
`idx`: location and character lines update the state and emit nothing; a
description line rehashes the scene description id and emits a
scene-description document; a dialog line emits a dialog document carrying
the current state.  The content hash `joblib.hash` is an external
deterministic function, taken as a parameter. -/
def ctxStep (hash : List Char → List Char) (st : CtxState) (li : LineItem) (idx : Nat) :
    CtxState × List Document :=
  match li.textType with
  | .location => ({ st with location := some li.text }, [])
  | .character => ({ st with character := some li.text }, [])
  | .description =>
    let sid := hash li.text
    ({ st with sceneDescriptionId := some sid },
      [⟨li.text,
        ⟨"scene_description".toList, some sid, none, st.location, li.pageNumber, idx⟩⟩])
  | .dialog =>
    (st,
      [⟨li.text,
        ⟨"dialog".toList, st.sceneDescriptionId, st.character, st.location,
         li.pageNumber, idx⟩⟩])

/-- The contextualization loop of `load` over the aggregated records. -/
def ctxGo (hash : List Char → List Char) (st : CtxState) (idx : Nat) :
    List LineItem → List Document
  | [] => []
  | li :: rest =>
    let step := ctxStep hash st li idx
    step.2 ++ ctxGo hash step.1 (idx + 1) rest

/-- The contextualization pass of `load`: enumeration starts at index 1
with all three running variables unset. -/
def contextualize (hash : List Char → List Char) (items : List LineItem) : List Document :=
  ctxGo hash initCtx 1 items

/-- The state reached by folding the contextualization step over a list of
records from an arbitrary starting state (the emitted index does not
influence the state). -/
def ctxFold (hash : List Char → List Char) (st : CtxState) (p : List LineItem) : CtxState :=
  p.foldl (fun s li => (ctxStep hash s li 0).1) st

/-- The state of the contextualization loop after a prefix of the records. -/
def ctxStateAfter (hash : List Char → List Char) (p : List LineItem) : CtxState :=
  ctxFold hash initCtx p

/-- The text of the last record of the given kind in a list, if any. -/
def lastTextOf (tt : TextType) (p : List LineItem) : Option (List Char) :=
  ((p.filter (fun li => li.textType == tt)).getLast?).map LineItem.text

/-- ASCII lower-casing, used to express case-insensitive containment. -/
def asciiLower (c : Char) : Char :=
  if 'A' ≤ c ∧ c ≤ 'Z' then Char.ofNat (c.toNat + 32) else c

/-- The margin set the configuration assigns to each classification kind. -/
def marginsFor (cfg : Config) : TextType → List Nat
  | .location => cfg.locationMargins
  | .description => cfg.descriptionMargins
  | .character => cfg.characterMargins
  | .dialog => cfg.dialogMargins

/-- Index of the first `(` in the list, if any. -/
def firstOpenIdx : List Char → Option Nat
  | [] => none
  | c :: rest => if c == '(' then some 0 else (firstOpenIdx rest).map (· + 1)

/-!  General helper lemmas. -/

theorem mapMExcept_ok_mem {f : α → Except PyError β} :
    ∀ {l : List α} {bs : List β}, mapMExcept f l = .ok bs → ∀ a ∈ l, ∃ b, f a = .ok b := by
  intro l
  induction l with
  | nil => intro bs _ a ha; cases ha
  | cons x xs ih =>
    intro bs h a ha
    unfold mapMExcept at h
    cases hfx : f x with
    | error e => rw [hfx] at h; cases h
    | ok b =>
      rw [hfx] at h
      cases hrest : mapMExcept f xs with
      | error e => rw [hrest] at h; cases h
      | ok bs' =>
        rcases List.mem_cons.mp ha with rfl | ha'
        · exact ⟨b, hfx⟩
        · exact ih hrest a ha'

theorem aggLineGroups_assert (x y : LineItem) (rest : List LineItem)
    (h : x.textType = .location ∨ x.textType = .character) :
    aggLineGroups (x :: y :: rest) = .error .assertionError := by
  simp [aggLineGroups, h]

theorem lenTakeWhileLe (p : α → Bool) (l : List α) :
    (l.takeWhile p).length ≤ l.length :=
  (List.takeWhile_sublist p).length_le

theorem midScan_fst (g1 : List Char) :
    ∀ (after pre : List Char) (a b : List Char),
      midScan g1 pre after = some (a, b) → a = g1 ∧ ∃ suf, pre.reverse ++ suf = b := by
  intro after
  induction after with
  | nil =>
    intro pre a b h
    unfold midScan at h
    rw [show tailMatch [] = false from rfl, if_neg (by simp)] at h
    cases h
  | cons c rest ih =>
    intro pre a b h
    unfold midScan at h
    by_cases ht : tailMatch (c :: rest) = true
    · rw [if_pos ht] at h
      injection h with h'; injection h' with h1 h2
      exact ⟨h1.symm, [], by rw [List.append_nil]; exact h2⟩
    · rw [if_neg ht] at h
      dsimp only at h
      by_cases hc : (c == '\n') = true
      · rw [if_pos hc] at h; cases h
      · rw [if_neg hc] at h
        rcases ih (c :: pre) a b h with ⟨h1, suf, hsuf⟩
        refine ⟨h1, c :: suf, ?_⟩
        simpa using hsuf

theorem spacesLoop_some (stem rest : List Char) :
    ∀ (k : Nat) (a b : List Char), spacesLoop stem rest k = some (a, b) →
      ∃ j, 2 ≤ j ∧ j ≤ k ∧ a = stem ++ rest.take j := by
  intro k
  induction k with
  | zero => intro a b h; simp [spacesLoop] at h
  | succ k ih =>
    intro a b h
    unfold spacesLoop at h
    split at h
    · split at h
      · next r heq =>
        injection h with h'
        subst h'
        rcases midScan_fst _ _ _ _ _ heq with ⟨h1, _⟩
        exact ⟨k + 1, by assumption, le_refl _, h1⟩
      · rcases ih a b h with ⟨j, hj1, hj2, hj3⟩
        exact ⟨j, hj1, Nat.le_succ_of_le hj2, hj3⟩
    · cases h

theorem digitsLoop_some (letter rest : List Char) :
    ∀ (n : Nat) (a b : List Char), digitsLoop letter rest n = some (a, b) →
      ∃ d j, 1 ≤ d ∧ d ≤ n ∧ 2 ≤ j ∧ j ≤ ((rest.drop d).takeWhile pyIsSpace).length ∧
        a = (letter ++ rest.take d) ++ (rest.drop d).take j := by
  intro n
  induction n with
  | zero => intro a b h; simp [digitsLoop] at h
  | succ n ih =>
    intro a b h
    unfold digitsLoop at h
    split at h
    · next r heq =>
      injection h with h'
      subst h'
      unfold digitsAttempt at heq
      rcases spacesLoop_some _ _ _ _ _ heq with ⟨j, hj1, hj2, hj3⟩
      exact ⟨n + 1, j, Nat.succ_le_succ (Nat.zero_le _), le_refl _, hj1,
        hj2, hj3⟩
    · rcases ih a b h with ⟨d, j, h1, h2, h3, h4, h5⟩
      exact ⟨d, j, h1, Nat.le_succ_of_le h2, h3, h4, h5⟩

theorem locGroups_g1_big {l g1 g2 : List Char} (h : locGroups l = some (g1, g2)) :
    2 ≤ g1.length := by
  have key : ∀ (letter rest : List Char) (n : Nat),
      digitsLoop letter rest n = some (g1, g2) → 2 ≤ g1.length := by
    intro letter rest n hd
    rcases digitsLoop_some _ _ _ _ _ hd with ⟨d, j, _, _, hj2, hjle, ha⟩
    have hlen : ((rest.drop d).take j).length = j := by
      rw [List.length_take]
      exact Nat.min_eq_left (le_trans hjle (lenTakeWhileLe _ _))
    rw [ha, List.length_append, hlen]
    omega
  unfold locGroups at h
  split at h
  · cases h
  · split at h
    · split at h
      · next r heq =>
        injection h with h'; subst h'
        exact key _ _ _ heq
      · exact key _ _ _ h
    · exact key _ _ _ h

theorem getLocationText_some {cfg : Config} {l t : List Char} {m : Nat}
    (h : getLocationText cfg l = some (t, m)) :
    m ∈ cfg.locationMargins ∧ 2 ≤ m := by
  unfold getLocationText at h
  split at h
  · cases h
  · split at h
    · cases h
    · next g1 g2 heq =>
      split at h
      · injection h with h'; injection h' with h1 h2
        subst h2
        exact ⟨by assumption, locGroups_g1_big heq⟩
      · cases h

theorem getCharacterText_some {cfg : Config} {l t : List Char} {m : Nat}
    (h : getCharacterText cfg l = some (t, m)) :
    m ∈ cfg.characterMargins ∧ 2 ≤ m := by
  unfold getCharacterText at h
  split at h
  · cases h
  · split at h
    · cases h
    · next sp rem heq =>
      split at h
      · injection h with h'; injection h' with h1 h2
        subst h2
        unfold leadSpacesRemainder at heq
        split at heq
        · simp only [Option.some.injEq, Prod.mk.injEq] at heq
          obtain ⟨e1, e2⟩ := heq
          subst e1
          exact ⟨by assumption, by assumption⟩
        · cases heq
      · cases h

theorem getNonUpperText_some {margins : List Nat} {l t : List Char} {m : Nat}
    (h : getNonUpperText margins l = some (t, m)) :
    m ∈ margins ∧ 2 ≤ m := by
  unfold getNonUpperText at h
  split at h
  · cases h
  · next sp rem heq =>
    split at h
    · injection h with h'; injection h' with h1 h2
      subst h2
      unfold leadSpacesRemainder at heq
      split at heq
      · simp only [Option.some.injEq, Prod.mk.injEq] at heq
        obtain ⟨e1, e2⟩ := heq
        subst e1
        exact ⟨by assumption, by assumption⟩
      · cases heq
    · cases h

theorem map_some_ok_inv {e : Except PyError LineItem} {li : LineItem}
    (h : e.map some = .ok (some li)) : e = .ok li := by
  cases e with
  | ok x => simp [Except.map] at h; rw [h]
  | error err => simp [Except.map] at h

theorem map_some_error_inv {e : Except PyError LineItem} {err : PyError}
    (h : e.map some = .error err) : e = .error err := by
  cases e with
  | ok x => simp [Except.map] at h
  | error e' => simp [Except.map] at h; rw [h]

theorem mkLineItem_ok_inv {p : Nat} {tt : TextType} {t : List Char} {m : Nat}
    {li : LineItem} (h : mkLineItem p tt t m = .ok li) : li = ⟨p, tt, t, m⟩ := by
  unfold mkLineItem at h
  split at h
  · injection h with h'; exact h'.symm
  · cases h

theorem mkLineItem_error_inv {p : Nat} {tt : TextType} {t : List Char} {m : Nat}
    {err : PyError} (h : mkLineItem p tt t m = .error err) :
    err = .validationError ∧ ¬(1 ≤ t.length ∧ 1 ≤ m) := by
  unfold mkLineItem at h
  split at h
  · cases h
  · injection h with h'; exact ⟨h'.symm, by assumption⟩

/-!  Claim C9. -/

/-- C9: every line the classifier accepts carries a margin belonging to the
margin set configured for its kind; the invariant holds at construction of
the classified line (which is immutable). -/
theorem c9_margin_sound (cfg : Config) (line : List Char) (page : Nat)
    (li : LineItem) (h : parsePageLine cfg line page = .ok (some li)) :
    li.margin ∈ marginsFor cfg li.textType := by
  unfold parsePageLine at h
  split at h
  · cases h
  · split at h
    · next t m heq =>
      rcases getLocationText_some heq with ⟨hmem, _⟩
      rw [mkLineItem_ok_inv (map_some_ok_inv h)]
      exact hmem
    · split at h
      · next t m heq =>
        rcases getCharacterText_some heq with ⟨hmem, _⟩
        rw [mkLineItem_ok_inv (map_some_ok_inv h)]
        exact hmem
      · split at h
        · next t m heq =>
          rcases getNonUpperText_some heq with ⟨hmem, _⟩
          rw [mkLineItem_ok_inv (map_some_ok_inv h)]
          exact hmem
        · split at h
          · next t m heq =>
            rcases getNonUpperText_some heq with ⟨hmem, _⟩
            rw [mkLineItem_ok_inv (map_some_ok_inv h)]
            exact hmem
          · cases h

/-- Witness for C9: a description line at margin 8 under the default
configuration. -/
theorem c9_witness :
    parsePageLine defaultCfg ("        The hallway.".toList) 1 =
      .ok (some ⟨1, .description, "The hallway.".toList, 8⟩) ∧
    (⟨1, .description, "The hallway.".toList, 8⟩ : LineItem).margin ∈
      marginsFor defaultCfg (⟨1, .description, "The hallway.".toList, 8⟩ : LineItem).textType :=
  ⟨by rfl,
   c9_margin_sound defaultCfg ("        The hallway.".toList) 1 _ (by rfl)⟩

/-!  Claim C1, amended part. -/

/-- C1 amended: the classifier returns none, rather than raising, for a
line containing no ignore substring and matching no test; the only
exception it can raise at all is the pydantic validation error, and that
happens exactly when one of the four tests matches with an empty cleaned
text (for example a line whose text becomes empty after parenthetical
stripping and trimming). -/
theorem c1_no_raise (cfg : Config) (line : List Char) (page : Nat) :
    ((cfg.ignoreadTags.any fun tag => pyContains line tag) = false →
      getLocationText cfg line = none → getCharacterText cfg line = none →
      getDescriptionText cfg line = none → getDialogText cfg line = none →
      parsePageLine cfg line page = .ok none) ∧
    (∀ e, parsePageLine cfg line page = .error e →
      e = .validationError ∧
        ((∃ m, getLocationText cfg line = some ([], m)) ∨
         (∃ m, getCharacterText cfg line = some ([], m)) ∨
         (∃ m, getDescriptionText cfg line = some ([], m)) ∨
         (∃ m, getDialogText cfg line = some ([], m)))) := by
  constructor
  · intro h0 h1 h2 h3 h4
    simp [parsePageLine, h0, h1, h2, h3, h4]
  · intro e h
    unfold parsePageLine at h
    split at h
    · cases h
    · split at h
      · next t m heq =>
        rcases getLocationText_some heq with ⟨_, hm⟩
        rcases mkLineItem_error_inv (map_some_error_inv h) with ⟨he, hbad⟩
        have ht : t = [] := by
          rcases List.length_eq_zero.mp (by omega : t.length = 0) with h'
          exact h'
        subst ht
        exact ⟨he, Or.inl ⟨m, heq⟩⟩
      · split at h
        · next t m heq =>
          rcases getCharacterText_some heq with ⟨_, hm⟩
          rcases mkLineItem_error_inv (map_some_error_inv h) with ⟨he, hbad⟩
          have ht : t = [] := List.length_eq_zero.mp (by omega)
          subst ht
          exact ⟨he, Or.inr (Or.inl ⟨m, heq⟩)⟩
        · split at h
          · next t m heq =>
            rcases getNonUpperText_some heq with ⟨_, hm⟩
            rcases mkLineItem_error_inv (map_some_error_inv h) with ⟨he, hbad⟩
            have ht : t = [] := List.length_eq_zero.mp (by omega)
            subst ht
            exact ⟨he, Or.inr (Or.inr (Or.inl ⟨m, heq⟩))⟩
          · split at h
            · next t m heq =>
              rcases getNonUpperText_some heq with ⟨_, hm⟩
              rcases mkLineItem_error_inv (map_some_error_inv h) with ⟨he, hbad⟩
              have ht : t = [] := List.length_eq_zero.mp (by omega)
              subst ht
              exact ⟨he, Or.inr (Or.inr (Or.inr ⟨m, heq⟩))⟩
            · cases h

/-- Witness for C1 amended: an unindented lower-case line matches no test
and classifies to none without an error. -/
theorem c1_witness :
    parsePageLine defaultCfg ("x".toList) 1 = .ok none :=
  (c1_no_raise defaultCfg ("x".toList) 1).1 (by decide) (by rfl) (by rfl)
    (by rfl) (by rfl)

/-!  Claim C5. -/

/-- C5: a multi-member run whose kind is location or character makes the
aggregation step raise the internal assertion error, and a whole-sequence
aggregation containing such a run can never return successfully (it never
silently merges the run). -/
theorem c5_fail_fast :
    (∀ (x y : LineItem) (rest : List LineItem),
        x.textType = .location ∨ x.textType = .character →
        aggLineGroups (x :: y :: rest) = .error .assertionError) ∧
    (∀ l : List LineItem,
        (∃ g ∈ groupRuns l, ∃ (x y : LineItem) (r2 : List LineItem),
            g = x :: y :: r2 ∧ (x.textType = .location ∨ x.textType = .character)) →
        ∀ out, aggregate l ≠ .ok out) := by
  refine ⟨aggLineGroups_assert, ?_⟩
  rintro l ⟨g, hg, x, y, r2, rfl, hk⟩ out hok
  rcases mapMExcept_ok_mem hok _ hg with ⟨b, hb⟩
  rw [aggLineGroups_assert x y r2 hk] at hb
  cases hb

/-- Witness for C5 at a concrete two-member location run. -/
theorem c5_witness :
    aggLineGroups
      [⟨1, .location, "INT".toList, 8⟩, ⟨1, .location, "EXT".toList, 8⟩] =
      .error .assertionError :=
  c5_fail_fast.1 _ _ _ (Or.inl rfl)

/-!  Aggregation machinery, shared by claims C4 and C7. -/

/-- One step of the fold that builds `groupRuns`. -/
theorem groupRuns_cons (x : LineItem) (xs : List LineItem) :
    groupRuns (x :: xs) =
      match groupRuns xs with
      | [] => [[x]]
      | g :: rest =>
        match g with
        | [] => [x] :: rest
        | y :: _ => if aggKey x = aggKey y then (x :: g) :: rest else [x] :: g :: rest := rfl

/-- Structural properties of `groupRuns`: it partitions the input into
nonempty runs of constant key, preserving order, with distinct keys at
every boundary between adjacent runs. -/
theorem groupRuns_spec (l : List LineItem) :
    (groupRuns l).flatten = l ∧
    (∀ g ∈ groupRuns l, g ≠ []) ∧
    (∀ g ∈ groupRuns l, ∀ a ∈ g, ∀ b ∈ g, aggKey a = aggKey b) ∧
    List.Chain' (fun g h => g.head?.map aggKey ≠ h.head?.map aggKey) (groupRuns l) := by
  induction l with
  | nil => exact ⟨rfl, by simp [groupRuns], by simp [groupRuns], by simp [groupRuns]⟩
  | cons x xs ih =>
    rcases ih with ⟨ihj, ihne, ihconst, ihchain⟩
    rw [groupRuns_cons]
    cases hgs : groupRuns xs with
    | nil =>
      have hxs : xs = [] := by rw [hgs] at ihj; simpa using ihj.symm
      subst hxs
      refine ⟨by simp, by simp, by simp, by simp⟩
    | cons g rest =>
      rw [hgs] at ihj ihne ihconst ihchain
      clear hgs
      cases g with
      | nil => exact absurd rfl (ihne [] (List.mem_cons_self _ _))
      | cons y t =>
        dsimp only
        by_cases hk : aggKey x = aggKey y
        · rw [if_pos hk]
          refine ⟨?_, ?_, ?_, ?_⟩
          · simpa using ihj
          · intro g' hg'
            rcases List.mem_cons.mp hg' with rfl | hg''
            · exact List.cons_ne_nil _ _
            · exact ihne g' (List.mem_cons_of_mem _ hg'')
          · intro g' hg'
            rcases List.mem_cons.mp hg' with rfl | hg''
            · intro a ha b hb
              have key_all : ∀ c ∈ y :: t, aggKey c = aggKey y := fun c hc =>
                ihconst (y :: t) (List.mem_cons_self _ _) c hc y (List.mem_cons_self _ _)
              have key_x : ∀ c ∈ x :: y :: t, aggKey c = aggKey y := by
                intro c hc
                rcases List.mem_cons.mp hc with rfl | hc'
                · exact hk
                · exact key_all c hc'
              rw [key_x a ha, key_x b hb]
            · exact ihconst g' (List.mem_cons_of_mem _ hg'')
          · have hhd : (x :: y :: t).head?.map aggKey = (y :: t).head?.map aggKey := by
              simp [hk]
            rcases List.chain'_cons'.mp ihchain with ⟨hR, hrest⟩
            exact List.chain'_cons'.mpr ⟨fun b hb => by rw [hhd]; exact hR b hb, hrest⟩
        · rw [if_neg hk]
          refine ⟨by simpa using ihj, ?_, ?_, ?_⟩
          · intro g' hg'
            rcases List.mem_cons.mp hg' with rfl | hg''
            · exact List.cons_ne_nil _ _
            · exact ihne g' hg''
          · intro g' hg'
            rcases List.mem_cons.mp hg' with rfl | hg''
            · intro a ha b hb
              rcases List.mem_singleton.mp ha with rfl
              rcases List.mem_singleton.mp hb with rfl
              rfl
            · exact ihconst g' hg''
          · refine List.Chain'.cons ?_ ihchain
            simpa using hk

/-- The equation of `aggLineGroups` on a multi-member group. -/
theorem aggLineGroups_cons2 (x y : LineItem) (t : List LineItem) :
    aggLineGroups (x :: y :: t) =
      if x.textType = .location ∨ x.textType = .character then .error .assertionError
      else
        mkLineItem x.pageNumber x.textType
          (List.intercalate [' '] ((x :: y :: t).map (·.text))) x.margin := rfl

/-- Successful collapse of one group equals the specification's collapse. -/
theorem aggLineGroups_ok_inv {g : List LineItem} {li : LineItem}
    (h : aggLineGroups g = .ok li) : li = specCollapse g := by
  cases g with
  | nil => cases h
  | cons x t =>
    cases t with
    | nil =>
      injection h with h'
      rw [← h']; rfl
    | cons y t' =>
      rw [aggLineGroups_cons2] at h
      split at h
      · cases h
      · rw [mkLineItem_ok_inv h]; rfl

/-- A successful left-to-right effectful map is the pure map of the
pointwise values. -/
theorem mapMExcept_ok_map {f : α → Except PyError β} {c : α → β} :
    ∀ {l : List α} {r : List β}, mapMExcept f l = .ok r →
      (∀ a ∈ l, ∀ b, f a = .ok b → b = c a) → r = l.map c := by
  intro l
  induction l with
  | nil => intro r h _; cases h; rfl
  | cons a as ih =>
    intro r h hpt
    unfold mapMExcept at h
    cases hfa : f a with
    | error e => rw [hfa] at h; cases h
    | ok b =>
      rw [hfa] at h
      cases hrest : mapMExcept f as with
      | error e => rw [hrest] at h; cases h
      | ok bs =>
        rw [hrest] at h
        injection h with h'
        rw [← h', List.map_cons, hpt a (List.mem_cons_self _ _) b hfa,
          ih hrest (fun a' ha' => hpt a' (List.mem_cons_of_mem _ ha'))]

/-- A successful aggregation is the map of the specification's collapse
over the runs. -/
theorem aggregate_ok_eq {l r : List LineItem} (h : aggregate l = .ok r) :
    r = (groupRuns l).map specCollapse :=
  mapMExcept_ok_map h (fun _ _ _ hb => aggLineGroups_ok_inv hb)

/-- The collapse of a nonempty run keeps the key of its first member. -/
theorem specCollapse_key (a : LineItem) (t : List LineItem) :
    aggKey (specCollapse (a :: t)) = aggKey a := by
  cases t with
  | nil => rfl
  | cons b t' => rfl

/-- Collapsing boundary-distinct nonempty runs yields a sequence in which
adjacent records always differ in key. -/
theorem chainKey_of_runs :
    ∀ gs : List (List LineItem), (∀ g ∈ gs, g ≠ []) →
      List.Chain' (fun g h => g.head?.map aggKey ≠ h.head?.map aggKey) gs →
      List.Chain' (fun a b => aggKey a ≠ aggKey b) (gs.map specCollapse) := by
  intro gs
  induction gs with
  | nil => intro _ _; simp
  | cons g rest ih =>
    intro hne hch
    cases rest with
    | nil => simp
    | cons g' rest' =>
      rcases List.chain'_cons.mp hch with ⟨hR, hch'⟩
      have h1 : g ≠ [] := hne g (List.mem_cons_self _ _)
      have h2 : g' ≠ [] := hne g' (List.mem_cons_of_mem _ (List.mem_cons_self _ _))
      rcases List.exists_cons_of_ne_nil h1 with ⟨a, t, rfl⟩
      rcases List.exists_cons_of_ne_nil h2 with ⟨a', t', rfl⟩
      refine List.chain'_cons.mpr ⟨?_, ih (fun g'' hg'' => hne g'' (List.mem_cons_of_mem _ hg'')) hch'⟩
      rw [specCollapse_key, specCollapse_key]
      intro hkey
      exact hR (by simpa using hkey)

/-- On a key-wise adjacent-distinct list every run is a singleton. -/
theorem groupRuns_of_chain :
    ∀ l : List LineItem, List.Chain' (fun a b => aggKey a ≠ aggKey b) l →
      groupRuns l = l.map (fun x => [x]) := by
  intro l
  induction l with
  | nil => intro _; rfl
  | cons x xs ih =>
    intro hch
    rw [groupRuns_cons]
    cases xs with
    | nil => rfl
    | cons y ys =>
      rcases List.chain'_cons.mp hch with ⟨hR, hch'⟩
      rw [ih hch']
      simp [hR]

/-- Mapping the collapse over singleton runs is the identity aggregation. -/
theorem mapMExcept_singletons :
    ∀ l : List LineItem, mapMExcept aggLineGroups (l.map (fun x => [x])) = .ok l := by
  intro l
  induction l with
  | nil => rfl
  | cons x xs ih => simp [mapMExcept, aggLineGroups, ih]

/-!  Claim C4. -/

/-- C4: the aggregator partitions the sequence into maximal runs of
consecutive records of identical kind and margin — the runs are nonempty,
have constant key, concatenate back to the input in order, and adjacent
runs differ in key, so two non-adjacent records of equal kind and margin
are never merged — and a successful aggregation replaces each run by the
specification's collapse: a singleton run unchanged, a larger run joined
by single spaces under the first member's page, kind and margin. -/
theorem c4_aggregator (l : List LineItem) :
    (groupRuns l).flatten = l ∧
    (∀ g ∈ groupRuns l, g ≠ [] ∧ ∀ a ∈ g, ∀ b ∈ g, aggKey a = aggKey b) ∧
    List.Chain' (fun g h => g.head?.map aggKey ≠ h.head?.map aggKey) (groupRuns l) ∧
    (∀ r, aggregate l = .ok r → r = (groupRuns l).map specCollapse) := by
  rcases groupRuns_spec l with ⟨h1, h2, h3, h4⟩
  exact ⟨h1, fun g hg => ⟨h2 g hg, h3 g hg⟩, h4, fun _ h => aggregate_ok_eq h⟩

/-- Witness for C4: two adjacent dialog lines merge, while the third
dialog line, separated from them by a description, stays separate. -/
theorem c4_witness :
    aggregate
        [⟨1, .dialog, "I know".toList, 21⟩, ⟨1, .dialog, "kung fu".toList, 21⟩,
         ⟨1, .description, "Neo opens his eyes.".toList, 8⟩,
         ⟨1, .dialog, "Show me.".toList, 21⟩] =
      .ok
        [⟨1, .dialog, "I know kung fu".toList, 21⟩,
         ⟨1, .description, "Neo opens his eyes.".toList, 8⟩,
         ⟨1, .dialog, "Show me.".toList, 21⟩] ∧
    [⟨1, .dialog, "I know kung fu".toList, 21⟩,
     ⟨1, .description, "Neo opens his eyes.".toList, 8⟩,
     ⟨1, .dialog, "Show me.".toList, 21⟩] =
      (groupRuns
        [⟨1, .dialog, "I know".toList, 21⟩, ⟨1, .dialog, "kung fu".toList, 21⟩,
         ⟨1, .description, "Neo opens his eyes.".toList, 8⟩,
         ⟨1, .dialog, "Show me.".toList, 21⟩]).map specCollapse :=
  ⟨by rfl,
   (c4_aggregator
      [⟨1, .dialog, "I know".toList, 21⟩, ⟨1, .dialog, "kung fu".toList, 21⟩,
       ⟨1, .description, "Neo opens his eyes.".toList, 8⟩,
       ⟨1, .dialog, "Show me.".toList, 21⟩]).2.2.2 _ (by rfl)⟩

/-!  Claim C7. -/

/-- C7: aggregation is idempotent — aggregating a successful aggregation's
output returns that output unchanged. -/
theorem c7_idempotent (l r : List LineItem) (h : aggregate l = .ok r) :
    aggregate r = .ok r := by
  have hr := aggregate_ok_eq h
  rcases groupRuns_spec l with ⟨_, hne, _, hchain⟩
  have hck : List.Chain' (fun a b => aggKey a ≠ aggKey b) r := by
    rw [hr]; exact chainKey_of_runs _ hne hchain
  unfold aggregate
  rw [groupRuns_of_chain r hck]
  exact mapMExcept_singletons r

/-- Witness for C7 at a concrete aggregation. -/
theorem c7_witness :
    aggregate
        [⟨1, .dialog, "I know kung fu".toList, 21⟩,
         ⟨2, .description, "He stands.".toList, 8⟩] =
      .ok
        [⟨1, .dialog, "I know kung fu".toList, 21⟩,
         ⟨2, .description, "He stands.".toList, 8⟩] :=
  c7_idempotent
    [⟨1, .dialog, "I know".toList, 21⟩, ⟨1, .dialog, "kung fu".toList, 21⟩,
     ⟨2, .description, "He stands.".toList, 8⟩] _ (by rfl)

/-!  Claim C8. -/

/-- C8: a page whose number lies outside the configured window (either
bound may be absent) parses to the empty sequence, whatever its text. -/
theorem c8_page_window (cfg : Config) (page : Nat) (text : List Char)
    (h : (∃ s, cfg.startPage = some s ∧ (page : Int) < s) ∨
         (∃ e, cfg.endPage = some e ∧ e < (page : Int))) :
    parsePage cfg page text = .ok [] := by
  rcases h with ⟨s, hs, hlt⟩ | ⟨e, he, hlt⟩
  · have hb : beforeWindow cfg page = true := by
      unfold beforeWindow; rw [hs]; simpa using hlt
    simp [parsePage, hb]
  · have ha : afterWindow cfg page = true := by
      unfold afterWindow; rw [he]; simpa using hlt
    by_cases hb : beforeWindow cfg page = true
    · simp [parsePage, hb]
    · simp [parsePage, hb, ha]

/-- Witness for C8: with the window 3..5, page 2 contributes nothing even
though its text alone would classify (as the second conjunct shows). -/
theorem c8_witness :
    parsePage { defaultCfg with startPage := some 3, endPage := some 5 } 2
        ("        Nice text.".toList) = .ok [] ∧
    parsePageLine { defaultCfg with startPage := some 3, endPage := some 5 }
        ("        Nice text.".toList) 2 =
      .ok (some ⟨2, .description, "Nice text.".toList, 8⟩) :=
  ⟨c8_page_window _ _ _ (Or.inl ⟨3, rfl, by decide⟩), by rfl⟩

/-!  Claim C2. -/

/-- C2 counterexample: the line of eight spaces followed by `fade in:`
contains the configured ignore tag `FADE IN:` up to letter case (first
conjunct), yet the classifier does not return none: it classifies the line
as a description (second conjunct).  Ignore-tag containment is
case-sensitive in the code. -/
theorem c2_counterexample :
    (defaultCfg.ignoreadTags.any fun tag =>
        pyContains (("        fade in:".toList).map asciiLower) (tag.map asciiLower)) = true
    ∧ parsePageLine defaultCfg ("        fade in:".toList) 1 =
        .ok (some ⟨1, .description, "fade in:".toList, 8⟩) :=
  ⟨by decide, by rfl⟩

/-- C2 amended: a line containing a configured ignore substring verbatim
(exact letter case) is classified as none, regardless of its margin. -/
theorem c2_ignore_tags (cfg : Config) (line : List Char) (page : Nat)
    (tag : List Char) (h1 : tag ∈ cfg.ignoreadTags) (h2 : pyContains line tag = true) :
    parsePageLine cfg line page = .ok none := by
  have hany : cfg.ignoreadTags.any (fun t => pyContains line t) = true :=
    List.any_eq_true.mpr ⟨tag, h1, h2⟩
  simp [parsePageLine, hany]

/-- Witness for C2 at a line containing `FADE IN:` verbatim. -/
theorem c2_witness :
    parsePageLine defaultCfg ("   FADE IN:".toList) 1 = .ok none :=
  c2_ignore_tags _ _ _ ("FADE IN:".toList) (by decide) (by decide)

/-!  Claim C1, counterexample part. -/

/-- C1 counterexample: the line of eight spaces contains no ignore tag
(first conjunct), yet the classifier raises a pydantic validation error
instead of returning none: the description test matches with margin 8 and
an empty cleaned text, and `LineItem` requires a non-empty text. -/
theorem c1_counterexample :
    (defaultCfg.ignoreadTags.any fun tag => pyContains ("        ".toList) tag) = false
    ∧ parsePageLine defaultCfg ("        ".toList) 1 = .error .validationError :=
  ⟨by decide, by rfl⟩

/-!  Contextualizer machinery for claim C3. -/

theorem ctxStep_fst_idx (hash : List Char → List Char) (st : CtxState)
    (li : LineItem) (idx : Nat) :
    (ctxStep hash st li idx).1 = (ctxStep hash st li 0).1 := by
  rcases li with ⟨pg, tt, tx, mg⟩
  cases tt <;> rfl

theorem ctxFold_cons (hash : List Char → List Char) (st : CtxState)
    (li : LineItem) (p : List LineItem) :
    ctxFold hash st (li :: p) = ctxFold hash (ctxStep hash st li 0).1 p := rfl

theorem lastTextOf_nil (tt : TextType) : lastTextOf tt [] = none := rfl

/-- The running variables after a prefix are exactly the texts of the most
recent location, character and description records of the prefix (the
scene id being the hash of the latter). -/
theorem ctxState_fields (hash : List Char → List Char) (p : List LineItem) :
    (ctxStateAfter hash p).location = lastTextOf .location p ∧
    (ctxStateAfter hash p).character = lastTextOf .character p ∧
    (ctxStateAfter hash p).sceneDescriptionId = (lastTextOf .description p).map hash := by
  induction p using List.reverseRecOn with
  | nil => exact ⟨rfl, rfl, rfl⟩
  | append_singleton p li ih =>
    rcases ih with ⟨ih1, ih2, ih3⟩
    have hfold : ctxStateAfter hash (p ++ [li]) =
        (ctxStep hash (ctxStateAfter hash p) li 0).1 := by
      unfold ctxStateAfter ctxFold
      rw [List.foldl_append]
      rfl
    rcases li with ⟨pg, tt, tx, mg⟩
    cases tt with
    | location =>
      refine ⟨?_, ?_, ?_⟩ <;>
        simp_all [hfold, ctxStep, lastTextOf, List.filter_append, List.getLast?_concat]
    | character =>
      refine ⟨?_, ?_, ?_⟩ <;>
        simp_all [hfold, ctxStep, lastTextOf, List.filter_append, List.getLast?_concat]
    | description =>
      refine ⟨?_, ?_, ?_⟩ <;>
        simp_all [hfold, ctxStep, lastTextOf, List.filter_append, List.getLast?_concat]
    | dialog =>
      refine ⟨?_, ?_, ?_⟩ <;>
        simp_all [hfold, ctxStep, lastTextOf, List.filter_append, List.getLast?_concat]

theorem get_mem_take : ∀ (l : List α) (i j : Nat) (hj : j < l.length),
    j < i → l.get ⟨j, hj⟩ ∈ l.take i := by
  intro l
  induction l with
  | nil => intro i j hj _; simp at hj
  | cons a t ihl =>
    intro i j hj hji
    cases i with
    | zero => omega
    | succ i' =>
      cases j with
      | zero => simp [List.take_succ_cons]
      | succ j' =>
        rw [List.take_succ_cons]
        exact List.mem_cons_of_mem _ (ihl i' j' (by simpa using hj) (by omega))

theorem getLast?_ne_none_of_ne_nil : ∀ {l : List α}, l ≠ [] → l.getLast? ≠ none := by
  intro l
  induction l with
  | nil => intro h; exact absurd rfl h
  | cons a t ih =>
    intro _
    cases t with
    | nil => simp
    | cons b t' =>
      rw [List.getLast?_cons_cons]
      exact ih (List.cons_ne_nil _ _)

theorem lastTextOf_ne_none {tt : TextType} {p : List LineItem}
    (h : ∃ li ∈ p, li.textType = tt) : lastTextOf tt p ≠ none := by
  rcases h with ⟨li, hm, htt⟩
  have hf : li ∈ p.filter (fun x => x.textType == tt) :=
    List.mem_filter.mpr ⟨hm, by simp [htt]⟩
  have hne : p.filter (fun x => x.textType == tt) ≠ [] := List.ne_nil_of_mem hf
  unfold lastTextOf
  cases hg : (p.filter (fun x => x.textType == tt)).getLast? with
  | none => exact absurd hg (getLast?_ne_none_of_ne_nil hne)
  | some x => simp

/-- Every dialog document emitted by the loop corresponds to a dialog
record of the input, carries that record's text and page, the 1-based
index of the record, and the three running variables as they stood before
the record; and the record leaves the state unchanged. -/
theorem ctxGo_mem (hash : List Char → List Char) :
    ∀ (items : List LineItem) (st : CtxState) (idx : Nat) (d : Document),
      d ∈ ctxGo hash st idx items → d.metadata.textType = "dialog".toList →
      ∃ i, ∃ hi : i < items.length,
        (items.get ⟨i, hi⟩).textType = .dialog ∧
        d.metadata.lineNumber = idx + i ∧
        d.text = (items.get ⟨i, hi⟩).text ∧
        d.metadata.pageNumber = (items.get ⟨i, hi⟩).pageNumber ∧
        d.metadata.location = (ctxFold hash st (items.take i)).location ∧
        d.metadata.character = (ctxFold hash st (items.take i)).character ∧
        d.metadata.sceneDescriptionId = (ctxFold hash st (items.take i)).sceneDescriptionId ∧
        ctxFold hash st (items.take (i + 1)) = ctxFold hash st (items.take i) := by
  intro items
  induction items with
  | nil => intro st idx d hd _; simp [ctxGo] at hd
  | cons li rest ih =>
    intro st idx d hd hty
    have hsplit : ctxGo hash st idx (li :: rest) =
        (ctxStep hash st li idx).2 ++ ctxGo hash (ctxStep hash st li idx).1 (idx + 1) rest := rfl
    rw [hsplit] at hd
    rcases List.mem_append.mp hd with hmem | hmem
    · rcases hli : li with ⟨pg, tt, tx, mg⟩
      subst hli
      cases tt with
      | location => simp [ctxStep] at hmem
      | character => simp [ctxStep] at hmem
      | description =>
        simp only [ctxStep, List.mem_singleton] at hmem
        subst hmem
        have hlit : ("scene_description".toList : List Char) = "dialog".toList := hty
        exact absurd hlit (by decide)
      | dialog =>
        simp only [ctxStep, List.mem_singleton] at hmem
        subst hmem
        exact ⟨0, by simp, rfl, by simp, rfl, rfl, rfl, rfl, rfl, rfl⟩
    · rcases ih (ctxStep hash st li idx).1 (idx + 1) d hmem hty with
        ⟨i, hi, h1, h2, h3, h4, h5, h6, h7, h8⟩
      have hstep : (ctxStep hash st li idx).1 = (ctxStep hash st li 0).1 :=
        ctxStep_fst_idx hash st li idx
      rw [hstep] at h5 h6 h7 h8
      refine ⟨i + 1, Nat.succ_lt_succ hi, h1, ?_, h3, h4, ?_, ?_, ?_, ?_⟩
      · rw [h2]; omega
      · rw [List.take_succ_cons, ctxFold_cons]; exact h5
      · rw [List.take_succ_cons, ctxFold_cons]; exact h6
      · rw [List.take_succ_cons, ctxFold_cons]; exact h7
      · rw [List.take_succ_cons, List.take_succ_cons, ctxFold_cons, ctxFold_cons]
        exact h8

/-!  Claim C3. -/

/-- C3: every dialog output unit corresponds to a dialog record at some
1-based position `i + 1`; its location and character fields equal the
texts of the most recent location and character records preceding it (in
particular they are non-none as soon as such records exist), its scene
description id is the running value before the record, and processing the
dialog record leaves the running state unchanged. -/
theorem c3_dialog_context (hash : List Char → List Char) (items : List LineItem)
    (d : Document) (hd : d ∈ contextualize hash items)
    (hty : d.metadata.textType = "dialog".toList) :
    ∃ i, ∃ hi : i < items.length,
      (items.get ⟨i, hi⟩).textType = .dialog ∧
      d.metadata.lineNumber = i + 1 ∧
      d.text = (items.get ⟨i, hi⟩).text ∧
      d.metadata.pageNumber = (items.get ⟨i, hi⟩).pageNumber ∧
      d.metadata.location = lastTextOf .location (items.take i) ∧
      d.metadata.character = lastTextOf .character (items.take i) ∧
      ((∃ j, ∃ hj : j < items.length, j < i ∧ (items.get ⟨j, hj⟩).textType = .location) →
        d.metadata.location ≠ none) ∧
      ((∃ j, ∃ hj : j < items.length, j < i ∧ (items.get ⟨j, hj⟩).textType = .character) →
        d.metadata.character ≠ none) ∧
      d.metadata.sceneDescriptionId = (ctxStateAfter hash (items.take i)).sceneDescriptionId ∧
      ctxStateAfter hash (items.take (i + 1)) = ctxStateAfter hash (items.take i) := by
  rcases ctxGo_mem hash items initCtx 1 d hd hty with
    ⟨i, hi, h1, h2, h3, h4, h5, h6, h7, h8⟩
  rcases ctxState_fields hash (items.take i) with ⟨hs1, hs2, _⟩
  have hloc : d.metadata.location = lastTextOf .location (items.take i) := by
    rw [h5]; exact hs1
  have hchar : d.metadata.character = lastTextOf .character (items.take i) := by
    rw [h6]; exact hs2
  refine ⟨i, hi, h1, by rw [h2]; omega, h3, h4, hloc, hchar, ?_, ?_, h7, h8⟩
  · rintro ⟨j, hj, hji, hjt⟩
    rw [hloc]
    exact lastTextOf_ne_none ⟨items.get ⟨j, hj⟩, get_mem_take items i j hj hji, hjt⟩
  · rintro ⟨j, hj, hji, hjt⟩
    rw [hchar]
    exact lastTextOf_ne_none ⟨items.get ⟨j, hj⟩, get_mem_take items i j hj hji, hjt⟩

/-- Witness for C3 at a three-record sequence: location, character,
dialog. -/
theorem c3_witness :
    ∃ i, ∃ hi : i <
        ([⟨1, .location, "THE MATRIX".toList, 8⟩,
          ⟨1, .character, "NEO".toList, 32⟩,
          ⟨1, .dialog, "I know kung fu".toList, 21⟩] : List LineItem).length,
      (([⟨1, .location, "THE MATRIX".toList, 8⟩,
         ⟨1, .character, "NEO".toList, 32⟩,
         ⟨1, .dialog, "I know kung fu".toList, 21⟩] : List LineItem).get ⟨i, hi⟩).textType
          = .dialog ∧
      (⟨"I know kung fu".toList,
        ⟨"dialog".toList, none, some ("NEO".toList), some ("THE MATRIX".toList), 1, 3⟩⟩ :
          Document).metadata.lineNumber = i + 1 ∧
      (⟨"I know kung fu".toList,
        ⟨"dialog".toList, none, some ("NEO".toList), some ("THE MATRIX".toList), 1, 3⟩⟩ :
          Document).text =
        (([⟨1, .location, "THE MATRIX".toList, 8⟩,
           ⟨1, .character, "NEO".toList, 32⟩,
           ⟨1, .dialog, "I know kung fu".toList, 21⟩] : List LineItem).get ⟨i, hi⟩).text ∧
      (⟨"I know kung fu".toList,
        ⟨"dialog".toList, none, some ("NEO".toList), some ("THE MATRIX".toList), 1, 3⟩⟩ :
          Document).metadata.pageNumber =
        (([⟨1, .location, "THE MATRIX".toList, 8⟩,
           ⟨1, .character, "NEO".toList, 32⟩,
           ⟨1, .dialog, "I know kung fu".toList, 21⟩] : List LineItem).get ⟨i, hi⟩).pageNumber ∧
      (⟨"I know kung fu".toList,
        ⟨"dialog".toList, none, some ("NEO".toList), some ("THE MATRIX".toList), 1, 3⟩⟩ :
          Document).metadata.location =
        lastTextOf .location
          (([⟨1, .location, "THE MATRIX".toList, 8⟩,
             ⟨1, .character, "NEO".toList, 32⟩,
             ⟨1, .dialog, "I know kung fu".toList, 21⟩] : List LineItem).take i) ∧
      (⟨"I know kung fu".toList,
        ⟨"dialog".toList, none, some ("NEO".toList), some ("THE MATRIX".toList), 1, 3⟩⟩ :
          Document).metadata.character =
        lastTextOf .character
          (([⟨1, .location, "THE MATRIX".toList, 8⟩,
             ⟨1, .character, "NEO".toList, 32⟩,
             ⟨1, .dialog, "I know kung fu".toList, 21⟩] : List LineItem).take i) ∧
      ((∃ j, ∃ hj : j <
            ([⟨1, .location, "THE MATRIX".toList, 8⟩,
              ⟨1, .character, "NEO".toList, 32⟩,
              ⟨1, .dialog, "I know kung fu".toList, 21⟩] : List LineItem).length,
          j < i ∧
            (([⟨1, .location, "THE MATRIX".toList, 8⟩,
               ⟨1, .character, "NEO".toList, 32⟩,
               ⟨1, .dialog, "I know kung fu".toList, 21⟩] : List LineItem).get ⟨j, hj⟩).textType
              = .location) →
        (⟨"I know kung fu".toList,
          ⟨"dialog".toList, none, some ("NEO".toList), some ("THE MATRIX".toList), 1, 3⟩⟩ :
            Document).metadata.location ≠ none) ∧
      ((∃ j, ∃ hj : j <
            ([⟨1, .location, "THE MATRIX".toList, 8⟩,
              ⟨1, .character, "NEO".toList, 32⟩,
              ⟨1, .dialog, "I know kung fu".toList, 21⟩] : List LineItem).length,
          j < i ∧
            (([⟨1, .location, "THE MATRIX".toList, 8⟩,
               ⟨1, .character, "NEO".toList, 32⟩,
               ⟨1, .dialog, "I know kung fu".toList, 21⟩] : List LineItem).get ⟨j, hj⟩).textType
              = .character) →
        (⟨"I know kung fu".toList,
          ⟨"dialog".toList, none, some ("NEO".toList), some ("THE MATRIX".toList), 1, 3⟩⟩ :
            Document).metadata.character ≠ none) ∧
      (⟨"I know kung fu".toList,
        ⟨"dialog".toList, none, some ("NEO".toList), some ("THE MATRIX".toList), 1, 3⟩⟩ :
          Document).metadata.sceneDescriptionId =
        (ctxStateAfter (fun t => t)
          (([⟨1, .location, "THE MATRIX".toList, 8⟩,
             ⟨1, .character, "NEO".toList, 32⟩,
             ⟨1, .dialog, "I know kung fu".toList, 21⟩] : List LineItem).take i)).sceneDescriptionId ∧
      ctxStateAfter (fun t => t)
          (([⟨1, .location, "THE MATRIX".toList, 8⟩,
             ⟨1, .character, "NEO".toList, 32⟩,
             ⟨1, .dialog, "I know kung fu".toList, 21⟩] : List LineItem).take (i + 1)) =
        ctxStateAfter (fun t => t)
          (([⟨1, .location, "THE MATRIX".toList, 8⟩,
             ⟨1, .character, "NEO".toList, 32⟩,
             ⟨1, .dialog, "I know kung fu".toList, 21⟩] : List LineItem).take i) :=
  c3_dialog_context (fun t => t)
    [⟨1, .location, "THE MATRIX".toList, 8⟩,
     ⟨1, .character, "NEO".toList, 32⟩,
     ⟨1, .dialog, "I know kung fu".toList, 21⟩]
    ⟨"I know kung fu".toList,
      ⟨"dialog".toList, none, some ("NEO".toList), some ("THE MATRIX".toList), 1, 3⟩⟩
    (by decide) (by decide)

/-!  Parenthetical stripping machinery for claim C10. -/

theorem lastCloserIdx_none_iff : ∀ l : List Char, lastCloserIdx l = none ↔ ')' ∉ l := by
  intro l
  induction l with
  | nil => simp [lastCloserIdx]
  | cons c rest ih =>
    unfold lastCloserIdx
    cases hr : lastCloserIdx rest with
    | some q =>
      simp only [hr]
      constructor
      · intro h; cases h
      · intro h
        have hnr : ')' ∉ rest := fun hm => h (List.mem_cons_of_mem _ hm)
        rw [ih.mpr hnr] at hr
        cases hr
    | none =>
      have hnr : ')' ∉ rest := ih.mp hr
      by_cases hc : c = ')'
      · simp only [hr]
        rw [if_pos (by simpa using hc)]
        constructor
        · intro h; cases h
        · intro h
          exact absurd (List.mem_cons_self c rest) (by rw [hc] at h ⊢; exact h)
      · simp only [hr]
        rw [if_neg (by simpa using hc)]
        constructor
        · intro _ hm
          rcases List.mem_cons.mp hm with he | hm'
          · exact hc he.symm
          · exact hnr hm'
        · intro _; rfl

theorem lastCloserIdx_spec : ∀ (l : List Char) (q : Nat), lastCloserIdx l = some q →
    l.get? q = some ')' ∧ ∀ j, q < j → l.get? j ≠ some ')' := by
  intro l
  induction l with
  | nil => intro q h; cases h
  | cons c rest ih =>
    intro q h
    unfold lastCloserIdx at h
    cases hr : lastCloserIdx rest with
    | some q0 =>
      rw [hr] at h
      injection h with h'
      subst h'
      rcases ih q0 hr with ⟨h1, h2⟩
      refine ⟨h1, ?_⟩
      intro j hj
      cases j with
      | zero => omega
      | succ j' => exact h2 j' (by omega)
    | none =>
      rw [hr] at h
      have hnr : ')' ∉ rest := (lastCloserIdx_none_iff rest).mp hr
      by_cases hc : c == ')'
      · rw [if_pos hc] at h
        injection h with h'
        subst h'
        refine ⟨by simpa using hc, ?_⟩
        intro j hj
        cases j with
        | zero => omega
        | succ j' =>
          intro hg
          rw [List.get?_cons_succ] at hg
          exact hnr (List.get?_mem hg)
      · rw [if_neg hc] at h
        cases h

theorem lastCloserIdx_max : ∀ (l : List Char) (q : Nat),
    l.get? q = some ')' → (∀ j, q < j → l.get? j ≠ some ')') →
    lastCloserIdx l = some q := by
  intro l q h1 h2
  cases hr : lastCloserIdx l with
  | none =>
    exact absurd (List.get?_mem h1) ((lastCloserIdx_none_iff l).mp hr)
  | some q' =>
    rcases lastCloserIdx_spec l q' hr with ⟨hg, hmax⟩
    rcases Nat.lt_trichotomy q q' with hlt | heq | hgt
    · exact absurd hg (h2 q' hlt)
    · rw [heq]
    · exact absurd h1 (hmax q hgt)

theorem firstOpenIdx_none_iff : ∀ l : List Char, firstOpenIdx l = none ↔ '(' ∉ l := by
  intro l
  induction l with
  | nil => simp [firstOpenIdx]
  | cons c rest ih =>
    unfold firstOpenIdx
    by_cases hc : c == '('
    · simp only [if_pos hc]
      constructor
      · intro h; cases h
      · intro h
        exact absurd (List.mem_cons_self c rest)
          (by rw [show c = '(' from by simpa using hc] at h ⊢; exact h)
    · simp only [if_neg hc]
      constructor
      · intro h hm
        rcases List.mem_cons.mp hm with he | hm'
        · exact absurd he.symm (by simpa using hc)
        · cases ho : firstOpenIdx rest with
          | none => exact (ih.mp ho) hm'
          | some p => rw [ho] at h; cases h
      · intro h
        have : '(' ∉ rest := fun hm => h (List.mem_cons_of_mem _ hm)
        rw [ih.mpr this]
        rfl

theorem firstOpenIdx_spec : ∀ (l : List Char) (p : Nat), firstOpenIdx l = some p →
    l.get? p = some '(' ∧ ∀ k, k < p → l.get? k ≠ some '(' := by
  intro l
  induction l with
  | nil => intro p h; cases h
  | cons c rest ih =>
    intro p h
    unfold firstOpenIdx at h
    by_cases hc : c == '('
    · rw [if_pos hc] at h
      injection h with h'
      subst h'
      exact ⟨by simpa using hc, fun k hk => by omega⟩
    · rw [if_neg hc] at h
      cases ho : firstOpenIdx rest with
      | none => rw [ho] at h; cases h
      | some p0 =>
        rw [ho, Option.map_some'] at h
        injection h with h'
        have hp : p = p0 + 1 := h'.symm
        subst hp
        rcases ih p0 ho with ⟨h1, h2⟩
        refine ⟨h1, ?_⟩
        intro k hk
        cases k with
        | zero =>
          simp only [List.get?_cons_zero]
          intro he
          exact absurd (by injection he) (by simpa using hc)
        | succ k' =>
          rw [List.get?_cons_succ]
          exact h2 k' (by omega)

theorem takeWhile_all {p : α → Bool} : ∀ {l : List α}, (∀ a ∈ l, p a = true) →
    l.takeWhile p = l := by
  intro l
  induction l with
  | nil => intro _; rfl
  | cons a t ih =>
    intro h
    rw [List.takeWhile_cons, h a (List.mem_cons_self _ _)]
    simp [ih (fun b hb => h b (List.mem_cons_of_mem _ hb))]

theorem stripParensGo_no_closer : ∀ (fuel : Nat) (l : List Char), ')' ∉ l →
    stripParensGo fuel l = l := by
  intro fuel
  induction fuel with
  | zero => intro l _; rfl
  | succ f ih =>
    intro l hl
    cases l with
    | nil => rfl
    | cons c rest =>
      unfold stripParensGo
      have hrest : ')' ∉ rest := fun hm => hl (List.mem_cons_of_mem _ hm)
      by_cases hc : c == '('
      · rw [if_pos hc]
        cases hq : lastCloserIdx (rest.takeWhile (fun ch => ch != '\n')) with
        | some q =>
          exfalso
          have hmem : ')' ∈ rest.takeWhile (fun ch => ch != '\n') := by
            rcases lastCloserIdx_spec _ _ hq with ⟨hg, _⟩
            exact List.get?_mem hg
          exact hrest ((List.takeWhile_sublist _).subset hmem)
        | none => rw [ih rest hrest]
      · rw [if_neg hc, ih rest hrest]

theorem stripParensGo_cons_ne (f : Nat) (c : Char) (rest : List Char) (hc : ¬(c == '(') = true) :
    stripParensGo (f + 1) (c :: rest) = c :: stripParensGo f rest := by
  conv_lhs => unfold stripParensGo
  rw [if_neg hc]

theorem stripParensGo_emit : ∀ (pre : List Char), '(' ∉ pre →
    ∀ (fuel : Nat) (l : List Char), pre.length ≤ fuel →
      stripParensGo fuel (pre ++ l) = pre ++ stripParensGo (fuel - pre.length) l := by
  intro pre
  induction pre with
  | nil => intro _ fuel l _; simp
  | cons c pre' ih =>
    intro hni fuel l hf
    cases fuel with
    | zero => simp at hf
    | succ f =>
      have hc : ¬(c == '(') = true := by
        simp only [beq_iff_eq]
        intro he
        exact hni (by rw [he]; exact List.mem_cons_self _ _)
      have hni' : '(' ∉ pre' := fun hm => hni (List.mem_cons_of_mem _ hm)
      have harith : f + 1 - (c :: pre').length = f - pre'.length := by
        simp only [List.length_cons]
        omega
      rw [harith]
      show stripParensGo (f + 1) (c :: (pre' ++ l)) = _
      rw [stripParensGo_cons_ne f c (pre' ++ l) (by simpa using hc),
        ih hni' f l (by simpa using hf), List.cons_append]

/-- The scan on a list decomposed at its first opening parenthesis, when
the remainder after it has a last closing parenthesis: the consumed span
runs to that closer. -/
theorem stripParens_decomp (A B : List Char) (hpre : '(' ∉ A) (hnlB : '\n' ∉ B)
    (q' : Nat) (hlc : lastCloserIdx B = some q') :
    stripParens (A ++ '(' :: B) = A ++ B.drop (q' + 1) := by
  rcases lastCloserIdx_spec B q' hlc with ⟨_, hq2⟩
  have hAlen : A.length ≤ (A ++ '(' :: B).length := by
    simp [List.length_append]
  unfold stripParens
  rw [stripParensGo_emit A hpre _ _ hAlen]
  have hfuel : (A ++ '(' :: B).length - A.length = B.length + 1 := by
    simp [List.length_append]
  rw [hfuel]
  congr 1
  show stripParensGo (B.length + 1) ('(' :: B) = B.drop (q' + 1)
  unfold stripParensGo
  rw [if_pos (by rfl)]
  have hseg : B.takeWhile (fun ch => ch != '\n') = B := by
    apply takeWhile_all
    intro a ha
    simp only [bne_iff_ne, ne_eq, decide_eq_true_eq]
    exact fun he => hnlB (he ▸ ha)
  rw [hseg, hlc]
  apply stripParensGo_no_closer
  intro hm
  rcases List.mem_iff_get?.mp hm with ⟨n, hn⟩
  rw [List.get?_eq_getElem?, List.getElem?_drop, ← List.get?_eq_getElem?] at hn
  exact hq2 (q' + 1 + n) (by omega) hn

/-!  Claim C10. -/

/-- C10: on a newline-free remainder containing an opening parenthesis
with a closing parenthesis somewhere after it, the parenthetical cleanup
removes exactly the span from the first `(` through the last `)`,
inclusive (swallowing any text between separate parenthetical groups);
and the character test's cleaned text is exactly this cleanup of the
captured remainder followed by whitespace trimming. -/
theorem c10_paren_cleanup :
    (∀ rem : List Char, '\n' ∉ rem → ∀ i j, i < j →
      rem.get? i = some '(' → rem.get? j = some ')' →
      ∃ p q, firstOpenIdx rem = some p ∧ lastCloserIdx rem = some q ∧ p < q ∧
        stripParens rem = rem.take p ++ rem.drop (q + 1)) ∧
    (∀ (cfg : Config) (line t : List Char) (mg : Nat),
      getCharacterText cfg line = some (t, mg) →
      t = pyStrip (stripParens
        ((line.drop ((line.takeWhile pyIsSpace).length)).takeWhile (fun c => c != '\n')))) := by
  constructor
  · intro rem hnl i j hij hi hj
    -- the first opening parenthesis exists
    cases hfo : firstOpenIdx rem with
    | none => exact absurd (List.get?_mem hi) ((firstOpenIdx_none_iff rem).mp hfo)
    | some p =>
      rcases firstOpenIdx_spec rem p hfo with ⟨hp, hpmin⟩
      have hplen : p < rem.length := by
        rcases List.get?_eq_some.mp hp with ⟨hlt, _⟩
        exact hlt
      have hAlen : (rem.take p).length = p := by
        rw [List.length_take]
        exact Nat.min_eq_left (by omega)
      -- decompose the remainder at the first opening parenthesis
      have hdecomp : rem = rem.take p ++ '(' :: rem.drop (p + 1) := by
        conv_lhs => rw [← List.take_append_drop p rem]
        congr 1
        rw [List.drop_eq_get_cons hplen]
        have : rem.get ⟨p, hplen⟩ = '(' := by
          rcases List.get?_eq_some.mp hp with ⟨_, hgg⟩
          exact hgg
        rw [this]
      have hpi : p ≤ i := by
        by_contra hlt
        exact hpmin i (by omega) hi
      have hpre : '(' ∉ rem.take p := by
        intro hm
        rcases List.mem_iff_get?.mp hm with ⟨k, hk⟩
        have hklen : k < (rem.take p).length := (List.get?_eq_some.mp hk).1
        have hkp : k < p := by omega
        exact hpmin k hkp (by rw [← List.get?_take hkp]; exact hk)
      have hrestnl : '\n' ∉ rem.drop (p + 1) :=
        fun hm => hnl ((List.drop_sublist _ _).subset hm)
      have hjrest : (rem.drop (p + 1)).get? (j - (p + 1)) = some ')' := by
        rw [List.get?_eq_getElem?, List.getElem?_drop, ← List.get?_eq_getElem?]
        rw [show p + 1 + (j - (p + 1)) = j from by omega]
        exact hj
      have hclose_mem : ')' ∈ rem.drop (p + 1) := List.get?_mem hjrest
      cases hlc : lastCloserIdx (rem.drop (p + 1)) with
      | none => exact absurd hclose_mem ((lastCloserIdx_none_iff _).mp hlc)
      | some q'
      =>
      rcases lastCloserIdx_spec _ _ hlc with ⟨hq1, hq2⟩
      refine ⟨p, p + 1 + q', rfl, ?_, by omega, ?_⟩
      · -- the global last closer sits at p + 1 + q'
        apply lastCloserIdx_max
        · conv_lhs => rw [hdecomp]
          rw [List.get?_append_right (by omega)]
          rw [show p + 1 + q' - (rem.take p).length = q' + 1 from by omega]
          simpa using hq1
        · intro j2 hj2 hcontra
          rw [hdecomp] at hcontra
          by_cases hge : (rem.take p).length ≤ j2
          · rw [List.get?_append_right hge] at hcontra
            have hidx : j2 - (rem.take p).length = (j2 - p - 1) + 1 := by omega
            rw [hidx] at hcontra
            simp only [List.get?_cons_succ] at hcontra
            exact hq2 (j2 - p - 1) (by omega) hcontra
          · omega
      · -- the computed strip
        conv_lhs => rw [hdecomp]
        rw [stripParens_decomp _ _ hpre hrestnl q' hlc]
        congr 1
        rw [List.drop_drop]
        congr 1
  · intro cfg line t mg h
    unfold getCharacterText at h
    split at h
    · cases h
    · split at h
      · cases h
      · next sp rem heq =>
        split at h
        · injection h with h'; injection h' with h1 h2
          unfold leadSpacesRemainder at heq
          split at heq
          · simp only [Option.some.injEq, Prod.mk.injEq] at heq
            rw [← h1, ← heq.2]
          · cases heq
        · cases h

/-- Witness for C10 at the remainder `NEO (V.O.) AND TRINITY (O.S.)`: the
span from the first `(` to the last `)` is removed, the character test
yields `NEO`. -/
theorem c10_witness :
    (∃ p q, firstOpenIdx ("NEO (V.O.) AND TRINITY (O.S.)".toList) = some p ∧
      lastCloserIdx ("NEO (V.O.) AND TRINITY (O.S.)".toList) = some q ∧ p < q ∧
      stripParens ("NEO (V.O.) AND TRINITY (O.S.)".toList) =
        ("NEO (V.O.) AND TRINITY (O.S.)".toList).take p ++
        ("NEO (V.O.) AND TRINITY (O.S.)".toList).drop (q + 1)) ∧
    pyStrip (stripParens ("NEO (V.O.) AND TRINITY (O.S.)".toList)) = "NEO".toList ∧
    getCharacterText { defaultCfg with characterMargins := [8] }
        ("        NEO (V.O.) AND TRINITY (O.S.)".toList) =
      some ("NEO".toList, 8) :=
  ⟨c10_paren_cleanup.1 ("NEO (V.O.) AND TRINITY (O.S.)".toList) (by decide) 4 9
      (by decide) (by rfl) (by rfl),
   by rfl, by rfl⟩

/-!  Location-pattern machinery for claim C6: character classes. -/

theorem space_not_digit {c : Char} (h : pyIsSpace c = true) : pyIsDigit c = false := by
  simp only [pyIsSpace, Bool.or_eq_true, beq_iff_eq] at h
  rcases h with ((((h | h) | h) | h) | h) | h <;> subst h <;> decide

theorem digit_not_space {c : Char} (h : pyIsDigit c = true) : pyIsSpace c = false := by
  simp only [pyIsDigit, Bool.and_eq_true, decide_eq_true_eq] at h
  rcases h with ⟨h1, h2⟩
  simp only [pyIsSpace, Bool.or_eq_false_iff, beq_eq_false_iff_ne, ne_eq]
  refine ⟨⟨⟨⟨⟨?_, ?_⟩, ?_⟩, ?_⟩, ?_⟩, ?_⟩ <;> rintro rfl <;>
    first
      | exact absurd h1 (by decide)
      | exact absurd h2 (by decide)

theorem digit_not_letterAB {c : Char} (h : pyIsDigit c = true) :
    (c == 'A' || c == 'B') = false := by
  simp only [pyIsDigit, Bool.and_eq_true, decide_eq_true_eq] at h
  rcases h with ⟨_, h2⟩
  simp only [Bool.or_eq_false_iff, beq_eq_false_iff_ne, ne_eq]
  constructor <;> rintro rfl <;> exact absurd h2 (by decide)

theorem takeWhile_append_all {p : α → Bool} :
    ∀ (A B : List α), (∀ a ∈ A, p a = true) →
      (∀ b, B.head? = some b → p b = false) → (A ++ B).takeWhile p = A := by
  intro A
  induction A with
  | nil =>
    intro B _ hB
    cases B with
    | nil => rfl
    | cons b B' =>
      simp only [List.nil_append]
      rw [List.takeWhile_cons, hB b rfl]
      rfl
  | cons a A' ih =>
    intro B hA hB
    simp only [List.cons_append]
    rw [List.takeWhile_cons, hA a (List.mem_cons_self _ _)]
    simp [ih B (fun x hx => hA x (List.mem_cons_of_mem _ hx)) hB]

/-!  Loop inversion lemmas for the tail matcher. -/

theorem digitsEndLoop_true_inv (l : List Char) :
    ∀ k, digitsEndLoop l k = true → ∃ dn, 1 ≤ dn ∧ dn ≤ k ∧ atDollar (l.drop dn) = true := by
  intro k
  induction k with
  | zero => intro h; cases h
  | succ k ih =>
    intro h
    unfold digitsEndLoop at h
    rcases Bool.or_eq_true_iff.mp h with h1 | h2
    · exact ⟨k + 1, by omega, le_refl _, h1⟩
    · rcases ih h2 with ⟨dn, hd1, hd2, hd3⟩
      exact ⟨dn, hd1, by omega, hd3⟩

theorem digitsEnd_true_inv {l : List Char} (h : digitsEnd l = true) :
    ∃ dn, 1 ≤ dn ∧ dn ≤ (l.takeWhile pyIsDigit).length ∧ atDollar (l.drop dn) = true :=
  digitsEndLoop_true_inv l _ h

theorem optLetterDigitsEnd_true_inv {u : List Char} (h : optLetterDigitsEnd u = true) :
    digitsEnd u = true ∨ ∃ c v, u = c :: v ∧ digitsEnd v = true := by
  cases u with
  | nil => cases h
  | cons c rest =>
    unfold optLetterDigitsEnd at h
    dsimp only at h
    by_cases hc : (c == 'A' || c == 'B') = true
    · rw [if_pos hc] at h
      rcases Bool.or_eq_true_iff.mp h with h1 | h2
      · exact Or.inr ⟨c, rest, rfl, h1⟩
      · exact Or.inl h2
    · rw [if_neg hc] at h
      exact Or.inl h

theorem tailLoop_true_inv (l : List Char) :
    ∀ k, tailLoop l k = true →
      ∃ k', 2 ≤ k' ∧ k' ≤ k ∧ optLetterDigitsEnd (l.drop k') = true := by
  intro k
  induction k with
  | zero => intro h; cases h
  | succ k ih =>
    intro h
    unfold tailLoop at h
    rcases Bool.or_eq_true_iff.mp h with h1 | h2
    · rcases Bool.and_eq_true_iff.mp h1 with ⟨hd, ho⟩
      exact ⟨k + 1, by simpa using hd, le_refl _, ho⟩
    · rcases ih h2 with ⟨k', h1', h2', h3'⟩
      exact ⟨k', h1', by omega, h3'⟩

theorem tailMatch_true_inv {l : List Char} (h : tailMatch l = true) :
    ∃ k, 2 ≤ k ∧ k ≤ (l.takeWhile pyIsSpace).length ∧
      optLetterDigitsEnd (l.drop k) = true :=
  tailLoop_true_inv l _ h

/-!  Positional helpers. -/

theorem get?_lt_takeWhile {p : α → Bool} {l : List α} {n : Nat}
    (h : n < (l.takeWhile p).length) : ∃ a, l.get? n = some a ∧ p a = true := by
  rcases @List.takeWhile_prefix _ l p with ⟨suf, hsuf⟩
  have hget : l.get? n = (l.takeWhile p).get? n := by
    conv_lhs => rw [← hsuf]
    rw [List.get?_append h]
  rcases List.get?_eq_get h with hg
  exact ⟨(l.takeWhile p).get ⟨n, h⟩, by rw [hget]; exact hg,
    List.mem_takeWhile_imp (List.get_mem _ _ _)⟩

theorem getLast?_drop_of_ne_nil {l : List α} {n : Nat} (h : l.drop n ≠ []) :
    (l.drop n).getLast? = l.getLast? := by
  conv_rhs => rw [← List.take_append_drop n l]
  rw [List.getLast?_append_of_ne_nil _ h]

theorem atDollar_inv {l : List Char} (h : atDollar l = true) : l = [] ∨ l = ['\n'] := by
  unfold atDollar at h
  rcases Bool.or_eq_true_iff.mp h with h1 | h2
  · exact Or.inl (by simpa using h1)
  · exact Or.inr (by simpa using h2)

/-- A nonempty suffix of a list ending in a digit cannot satisfy the `$`
anchor check unless it is empty. -/
theorem drop_eq_nil_of_atDollar {r : List Char} {n : Nat} {dl : Char}
    (hlast : r.getLast? = some dl) (hdig : pyIsDigit dl = true)
    (h : atDollar (r.drop n) = true) : r.drop n = [] := by
  rcases atDollar_inv h with h1 | h1
  · exact h1
  · exfalso
    have hne : r.drop n ≠ [] := by rw [h1]; exact List.cons_ne_nil _ _
    have := getLast?_drop_of_ne_nil hne
    rw [h1] at this
    simp only [List.getLast?_singleton] at this
    rw [hlast] at this
    injection this with he
    rw [← he] at hdig
    cases hdig

/-!  The third group accepts exactly at the structural suffix. -/

theorem digitsEnd_all {v : List Char} (hne : v ≠ [])
    (hdig : ∀ c ∈ v, pyIsDigit c = true) : digitsEnd v = true := by
  unfold digitsEnd
  rw [takeWhile_all hdig]
  obtain ⟨n, hn⟩ : ∃ n, v.length = n + 1 := by
    cases v with
    | nil => exact absurd rfl hne
    | cons a t => exact ⟨t.length, rfl⟩
  rw [hn]
  unfold digitsEndLoop
  rw [← hn, List.drop_length]
  rfl

theorem optLetter_structural {l2 d2 : List Char}
    (hl2 : l2 = [] ∨ l2 = ['A'] ∨ l2 = ['B'])
    (hd2 : d2 ≠ []) (hd2d : ∀ c ∈ d2, pyIsDigit c = true) :
    optLetterDigitsEnd (l2 ++ d2) = true := by
  have hde : digitsEnd d2 = true := digitsEnd_all hd2 hd2d
  rcases hl2 with rfl | rfl | rfl
  · rw [List.nil_append]
    cases hd : d2 with
    | nil => exact absurd hd hd2
    | cons c rest =>
      unfold optLetterDigitsEnd
      dsimp only
      rw [digit_not_letterAB (hd2d c (by rw [hd]; exact List.mem_cons_self _ _)),
        if_neg (by simp), ← hd]
      exact hde
  · rw [List.singleton_append]
    unfold optLetterDigitsEnd
    dsimp only
    rw [if_pos (by decide), hde]
    rfl
  · rw [List.singleton_append]
    unfold optLetterDigitsEnd
    dsimp only
    rw [if_pos (by decide), hde]
    rfl

theorem tail_true {s2 l2 d2 : List Char}
    (hl2 : l2 = [] ∨ l2 = ['A'] ∨ l2 = ['B'])
    (hd2 : d2 ≠ []) (hd2d : ∀ c ∈ d2, pyIsDigit c = true)
    (hs2 : 2 ≤ s2.length) (hs2s : ∀ c ∈ s2, pyIsSpace c = true) :
    tailMatch (s2 ++ (l2 ++ d2)) = true := by
  have hhead : ∀ b, (l2 ++ d2).head? = some b → pyIsSpace b = false := by
    intro b hb
    rcases hl2 with rfl | rfl | rfl
    · rw [List.nil_append] at hb
      cases hd : d2 with
      | nil => rw [hd] at hb; cases hb
      | cons c rest =>
        rw [hd] at hb
        have hbc : b = c := by injection hb with h'; exact h'.symm
        rw [hbc]
        exact digit_not_space (hd2d c (by rw [hd]; exact List.mem_cons_self _ _))
    · have hbc : b = 'A' := by
        rw [List.singleton_append] at hb
        injection hb with h'
        exact h'.symm
      rw [hbc]; decide
    · have hbc : b = 'B' := by
        rw [List.singleton_append] at hb
        injection hb with h'
        exact h'.symm
      rw [hbc]; decide
  have hrun : ((s2 ++ (l2 ++ d2)).takeWhile pyIsSpace) = s2 :=
    takeWhile_append_all s2 (l2 ++ d2) hs2s hhead
  unfold tailMatch
  rw [hrun]
  obtain ⟨k0, hk0⟩ : ∃ k0, s2.length = k0 + 1 := by
    cases s2 with
    | nil => simp at hs2
    | cons a t => exact ⟨t.length, rfl⟩
  rw [hk0]
  unfold tailLoop
  have hdec : decide (2 ≤ k0 + 1) = true := by rw [← hk0]; simpa using hs2
  have hdrop : (s2 ++ (l2 ++ d2)).drop (k0 + 1) = l2 ++ d2 := by
    rw [← hk0]; exact List.drop_left _ _
  rw [hdec, hdrop, optLetter_structural hl2 hd2 hd2d]
  rfl

/-- Shared contradiction: a match of the third group starting inside the
middle would have to cover the whole suffix with a whitespace run, an
optional letter and a digit run, which the last whitespace of `s2` at a
digit position refutes. -/
theorem tail_false_aux {mj s2 l2 d2 : List Char} (hmj : mj ≠ [])
    (hmjlast : ∀ c, mj.getLast? = some c → pyIsSpace c = false)
    (hd2 : d2 ≠ []) (hd2d : ∀ c ∈ d2, pyIsDigit c = true)
    (hs2 : 2 ≤ s2.length) (hs2s : ∀ c ∈ s2, pyIsSpace c = true)
    (k dn lt : Nat) (hlt : lt ≤ 1)
    (hkrun : k ≤ ((mj ++ (s2 ++ (l2 ++ d2))).takeWhile pyIsSpace).length)
    (hdnrun : dn ≤ (((mj ++ (s2 ++ (l2 ++ d2))).drop (k + lt)).takeWhile pyIsDigit).length)
    (hcover : (mj ++ (s2 ++ (l2 ++ d2))).length ≤ k + lt + dn) : False := by
  by_cases hall : ∀ c ∈ mj, pyIsSpace c = true
  · obtain ⟨c', hc'⟩ : ∃ c', mj.getLast? = some c' := by
      cases hg : mj.getLast? with
      | none => exact absurd hg (getLast?_ne_none_of_ne_nil hmj)
      | some c' => exact ⟨c', rfl⟩
    have : pyIsSpace c' = true := hall c' (List.mem_of_getLast?_eq_some hc')
    rw [hmjlast c' hc'] at this
    cases this
  · push_neg at hall
    rcases hall with ⟨c0, hc0mem, hc0⟩
    have hrun_lt : ((mj ++ (s2 ++ (l2 ++ d2))).takeWhile pyIsSpace).length < mj.length := by
      by_contra hge
      push_neg at hge
      apply hc0
      rcases List.mem_iff_get?.mp hc0mem with ⟨n, hn⟩
      have hnlt : n < mj.length := (List.get?_eq_some.mp hn).1
      rcases get?_lt_takeWhile
          (show n < ((mj ++ (s2 ++ (l2 ++ d2))).takeWhile pyIsSpace).length from by omega)
        with ⟨a, ha1, ha2⟩
      rw [List.get?_append hnlt, hn] at ha1
      injection ha1 with he
      rw [he]
      exact ha2
    have hd2len : 0 < d2.length := List.length_pos.mpr hd2
    have hq0lt : mj.length + (s2.length - 1) < (mj ++ (s2 ++ (l2 ++ d2))).length := by
      simp only [List.length_append]
      omega
    obtain ⟨sc, hsc1, hsc2⟩ :
        ∃ sc, (mj ++ (s2 ++ (l2 ++ d2))).get? (mj.length + (s2.length - 1)) = some sc ∧
          pyIsSpace sc = true := by
      rw [List.get?_append_right (by omega : mj.length ≤ mj.length + (s2.length - 1))]
      rw [show mj.length + (s2.length - 1) - mj.length = s2.length - 1 from by omega]
      have hlt2 : s2.length - 1 < s2.length := by omega
      rw [List.get?_append hlt2]
      exact ⟨s2.get ⟨s2.length - 1, hlt2⟩, List.get?_eq_get hlt2,
        hs2s _ (List.get_mem _ _ _)⟩
    obtain ⟨a, ha1, ha2⟩ :
        ∃ a, (mj ++ (s2 ++ (l2 ++ d2))).get? (mj.length + (s2.length - 1)) = some a ∧
          pyIsDigit a = true := by
      have hx : mj.length + (s2.length - 1) - (k + lt) < dn := by omega
      rcases get?_lt_takeWhile (show mj.length + (s2.length - 1) - (k + lt) <
          (((mj ++ (s2 ++ (l2 ++ d2))).drop (k + lt)).takeWhile pyIsDigit).length
        from by omega) with ⟨a, ha1, ha2⟩
      rw [List.get?_eq_getElem?, List.getElem?_drop, ← List.get?_eq_getElem?] at ha1
      rw [show (k + lt) + (mj.length + (s2.length - 1) - (k + lt)) =
          mj.length + (s2.length - 1) from by omega] at ha1
      exact ⟨a, ha1, ha2⟩
    rw [hsc1] at ha1
    injection ha1 with he
    rw [← he] at ha2
    rw [digit_not_space ha2] at hsc2
    cases hsc2

/-- The third group can never start strictly inside a middle that does not
end in whitespace: the whole backtracking tail matcher answers false
there. -/
theorem tail_false_core {mj s2 l2 d2 : List Char} (hmj : mj ≠ [])
    (hmjlast : ∀ c, mj.getLast? = some c → pyIsSpace c = false)
    (hl2 : l2 = [] ∨ l2 = ['A'] ∨ l2 = ['B'])
    (hd2 : d2 ≠ []) (hd2d : ∀ c ∈ d2, pyIsDigit c = true)
    (hs2 : 2 ≤ s2.length) (hs2s : ∀ c ∈ s2, pyIsSpace c = true) :
    tailMatch (mj ++ (s2 ++ (l2 ++ d2))) = false := by
  by_contra hT
  rw [Bool.not_eq_false] at hT
  -- the last character of the whole suffix is a digit
  have hl2d2 : l2 ++ d2 ≠ [] := by
    intro he
    rcases List.append_eq_nil.mp he with ⟨_, h2⟩
    exact hd2 h2
  have hs2tail : s2 ++ (l2 ++ d2) ≠ [] := by
    intro he
    rcases List.append_eq_nil.mp he with ⟨_, h2⟩
    exact hl2d2 h2
  obtain ⟨dl, hdl⟩ : ∃ dl, d2.getLast? = some dl := by
    cases hg : d2.getLast? with
    | none => exact absurd hg (getLast?_ne_none_of_ne_nil hd2)
    | some dl => exact ⟨dl, rfl⟩
  have hdl_mem : dl ∈ d2 := List.mem_of_getLast?_eq_some hdl
  have hrlast : (mj ++ (s2 ++ (l2 ++ d2))).getLast? = some dl := by
    rw [List.getLast?_append_of_ne_nil _ hs2tail, List.getLast?_append_of_ne_nil _ hl2d2,
      List.getLast?_append_of_ne_nil _ hd2]
    exact hdl
  have hdl_dig : pyIsDigit dl = true := hd2d dl hdl_mem
  -- invert the backtracking loops
  rcases tailMatch_true_inv hT with ⟨k, hk2, hkrun, hopt⟩
  rcases optLetterDigitsEnd_true_inv hopt with hde | ⟨c, v, hcv, hde⟩
  ·
    rcases digitsEnd_true_inv hde with ⟨dn, hdn1, hdnrun, hdol⟩
    rw [List.drop_drop] at hdol
    exact tail_false_aux hmj hmjlast hd2 hd2d hs2 hs2s k dn 0 (by omega) hkrun
      (by simpa using hdnrun)
      (by
        have := drop_eq_nil_of_atDollar hrlast hdl_dig hdol
        rw [List.drop_eq_nil_iff] at this
        omega)
  ·
    have hv : v = (mj ++ (s2 ++ (l2 ++ d2))).drop (k + 1) := by
      have := congrArg List.tail hcv
      simpa [List.tail_drop] using this.symm
    rw [hv] at hde
    rcases digitsEnd_true_inv hde with ⟨dn, hdn1, hdnrun, hdol⟩
    rw [List.drop_drop] at hdol
    exact tail_false_aux hmj hmjlast hd2 hd2d hs2 hs2s k dn 1 (by omega) hkrun
      (by simpa using hdnrun)
      (by
        have := drop_eq_nil_of_atDollar hrlast hdl_dig hdol
        rw [List.drop_eq_nil_iff] at this
        omega)

/-!  The lazy middle scan lands exactly at the structural suffix. -/

theorem midScan_runs (g1 : List Char) :
    ∀ (mid : List Char) (rest pre : List Char),
      (∀ c ∈ mid, c ≠ '\n') →
      (∀ jj, jj < mid.length → tailMatch (mid.drop jj ++ rest) = false) →
      tailMatch rest = true →
      midScan g1 pre (mid ++ rest) = some (g1, pre.reverse ++ mid) := by
  intro mid
  induction mid with
  | nil =>
    intro rest pre _ _ hT
    rw [List.nil_append]
    unfold midScan
    rw [hT, if_pos rfl]
    simp
  | cons c mid' ih =>
    intro rest pre hnl hfail hT
    rw [List.cons_append]
    unfold midScan
    have h0 : tailMatch (c :: (mid' ++ rest)) = false := by
      have := hfail 0 (by simp)
      simpa using this
    rw [h0, if_neg (by simp)]
    dsimp only
    have hc : (c == '\n') = false := by
      simp only [beq_eq_false_iff_ne, ne_eq]
      exact hnl c (List.mem_cons_self _ _)
    rw [hc, if_neg (by simp)]
    rw [ih rest (c :: pre) (fun x hx => hnl x (List.mem_cons_of_mem _ hx))
      (fun jj hjj => by simpa using hfail (jj + 1) (by simpa using hjj)) hT]
    simp

/-- The greedy digit and whitespace loops of the first group accept the
structural decomposition on the first attempt, and the lazy middle stops
exactly before the second whitespace block. -/
theorem digitsLoop_shape {d1 s1 m s2 l2 d2 : List Char} (letter : List Char)
    (hd1 : d1 ≠ []) (hd1d : ∀ c ∈ d1, pyIsDigit c = true)
    (hs1 : 2 ≤ s1.length) (hs1s : ∀ c ∈ s1, pyIsSpace c = true)
    (hm : m ≠ []) (hmnl : ∀ c ∈ m, c ≠ '\n')
    (hmh : ∀ c, m.head? = some c → pyIsSpace c = false)
    (hml : ∀ c, m.getLast? = some c → pyIsSpace c = false)
    (hl2 : l2 = [] ∨ l2 = ['A'] ∨ l2 = ['B'])
    (hd2 : d2 ≠ []) (hd2d : ∀ c ∈ d2, pyIsDigit c = true)
    (hs2 : 2 ≤ s2.length) (hs2s : ∀ c ∈ s2, pyIsSpace c = true) :
    digitsLoop letter (d1 ++ (s1 ++ (m ++ (s2 ++ (l2 ++ d2)))))
        ((d1 ++ (s1 ++ (m ++ (s2 ++ (l2 ++ d2))))).takeWhile pyIsDigit).length =
      some ((letter ++ d1) ++ s1, m) := by
  have hs1head : ∀ b, (s1 ++ (m ++ (s2 ++ (l2 ++ d2)))).head? = some b →
      pyIsDigit b = false := by
    intro b hb
    cases hs : s1 with
    | nil => rw [hs] at hs1; simp at hs1
    | cons cs s1' =>
      rw [hs, List.cons_append] at hb
      injection hb with hb'
      rw [← hb']
      exact space_not_digit (hs1s cs (by rw [hs]; exact List.mem_cons_self _ _))
  have hrun : ((d1 ++ (s1 ++ (m ++ (s2 ++ (l2 ++ d2))))).takeWhile pyIsDigit) = d1 :=
    takeWhile_append_all d1 _ hd1d hs1head
  rw [hrun]
  obtain ⟨n, hn⟩ : ∃ n, d1.length = n + 1 := by
    cases d1 with
    | nil => exact absurd rfl hd1
    | cons a t => exact ⟨t.length, rfl⟩
  rw [hn]
  unfold digitsLoop
  have hatt : digitsAttempt letter (d1 ++ (s1 ++ (m ++ (s2 ++ (l2 ++ d2))))) (n + 1) =
      some ((letter ++ d1) ++ s1, m) := by
    unfold digitsAttempt
    rw [← hn, List.take_left, List.drop_left]
    have hmhead : ∀ b, (m ++ (s2 ++ (l2 ++ d2))).head? = some b →
        pyIsSpace b = false := by
      intro b hb
      cases hmm : m with
      | nil => exact absurd hmm hm
      | cons cm m' =>
        rw [hmm, List.cons_append] at hb
        injection hb with hb'
        rw [← hb']
        exact hmh cm (by rw [hmm]; rfl)
    have hrun2 : ((s1 ++ (m ++ (s2 ++ (l2 ++ d2)))).takeWhile pyIsSpace) = s1 :=
      takeWhile_append_all s1 _ hs1s hmhead
    rw [hrun2]
    obtain ⟨k0, hk0⟩ : ∃ k0, s1.length = k0 + 1 := ⟨s1.length - 1, by omega⟩
    rw [hk0]
    unfold spacesLoop
    rw [if_pos (by omega)]
    have hatt2 : spacesAttempt (letter ++ d1) (s1 ++ (m ++ (s2 ++ (l2 ++ d2)))) (k0 + 1) =
        some ((letter ++ d1) ++ s1, m) := by
      unfold spacesAttempt
      rw [← hk0, List.take_left, List.drop_left]
      have hfail : ∀ jj, jj < m.length →
          tailMatch (m.drop jj ++ (s2 ++ (l2 ++ d2))) = false := by
        intro jj hjj
        have hmjne : m.drop jj ≠ [] := by
          rw [Ne, List.drop_eq_nil_iff]
          omega
        exact tail_false_core hmjne
          (fun c hc => hml c (by rw [← getLast?_drop_of_ne_nil hmjne]; exact hc))
          hl2 hd2 hd2d hs2 hs2s
      have := midScan_runs ((letter ++ d1) ++ s1) m (s2 ++ (l2 ++ d2)) [] hmnl hfail
        (tail_true hl2 hd2 hd2d hs2 hs2s)
      simpa using this
    rw [hatt2]
  rw [hatt]

/-- The anchored location pattern accepts a structurally well-formed line,
capturing the left bracket as the first group and the middle as the second. -/
theorem locGroups_shape {l1 d1 s1 m s2 l2 d2 : List Char}
    (hl1 : l1 = [] ∨ l1 = ['A'] ∨ l1 = ['B'])
    (hd1 : d1 ≠ []) (hd1d : ∀ c ∈ d1, pyIsDigit c = true)
    (hs1 : 2 ≤ s1.length) (hs1s : ∀ c ∈ s1, pyIsSpace c = true)
    (hm : m ≠ []) (hmnl : ∀ c ∈ m, c ≠ '\n')
    (hmh : ∀ c, m.head? = some c → pyIsSpace c = false)
    (hml : ∀ c, m.getLast? = some c → pyIsSpace c = false)
    (hl2 : l2 = [] ∨ l2 = ['A'] ∨ l2 = ['B'])
    (hd2 : d2 ≠ []) (hd2d : ∀ c ∈ d2, pyIsDigit c = true)
    (hs2 : 2 ≤ s2.length) (hs2s : ∀ c ∈ s2, pyIsSpace c = true) :
    locGroups (l1 ++ (d1 ++ (s1 ++ (m ++ (s2 ++ (l2 ++ d2)))))) =
      some ((l1 ++ d1) ++ s1, m) := by
  rcases hl1 with rfl | rfl | rfl
  · rw [List.nil_append]
    obtain ⟨cd, d1', hd⟩ : ∃ cd d1', d1 = cd :: d1' := by
      cases d1 with
      | nil => exact absurd rfl hd1
      | cons a t => exact ⟨a, t, rfl⟩
    rw [hd, List.cons_append]
    unfold locGroups
    dsimp only
    rw [digit_not_letterAB (hd1d cd (by rw [hd]; exact List.mem_cons_self _ _)),
      if_neg (by simp), ← List.cons_append, ← hd]
    have := digitsLoop_shape [] hd1 hd1d hs1 hs1s hm hmnl hmh hml hl2
      hd2 hd2d hs2 hs2s
    simpa using this
  · rw [List.singleton_append]
    unfold locGroups
    dsimp only
    rw [if_pos (by decide)]
    rw [digitsLoop_shape ['A'] hd1 hd1d hs1 hs1s hm hmnl hmh hml hl2
      hd2 hd2d hs2 hs2s]
  · rw [List.singleton_append]
    unfold locGroups
    dsimp only
    rw [if_pos (by decide)]
    rw [digitsLoop_shape ['B'] hd1 hd1d hs1 hs1s hm hmnl hmh hml hl2
      hd2 hd2d hs2 hs2s]

theorem pyStrip_eq_self {m : List Char}
    (hmh : ∀ c, m.head? = some c → pyIsSpace c = false)
    (hml : ∀ c, m.getLast? = some c → pyIsSpace c = false) : pyStrip m = m := by
  unfold pyStrip
  have h1 : m.dropWhile pyIsSpace = m := by
    cases hm : m with
    | nil => rfl
    | cons c t =>
      rw [List.dropWhile_cons, hmh c (by rw [hm]; rfl)]
      simp
  rw [h1]
  have h2 : m.reverse.dropWhile pyIsSpace = m.reverse := by
    cases hr : m.reverse with
    | nil => rfl
    | cons c t =>
      rw [List.dropWhile_cons]
      have hcl : m.getLast? = some c := by rw [← List.head?_reverse, hr]; rfl
      rw [hml c hcl]
      simp
  rw [h2, List.reverse_reverse]

/-!  Claim C6. -/

/-- C6 counterexample: the line `C12  LOBBY  C7` has the claimed shape —
single letter `C` plus digits, two spaces, middle text, two spaces, single
letter `C` plus digits — its left gap has length 5, a member of the
configured location margins, and it is entirely upper-case; yet the
Location test rejects it: the pattern admits only `A` or `B` as the
optional letter. -/
theorem c6_counterexample :
    pyIsUpperList ("C12  LOBBY  C7".toList) = true ∧
    "C12  LOBBY  C7".toList =
      ['C'] ++ ("12".toList ++ ("  ".toList ++
        ("LOBBY".toList ++ ("  ".toList ++ (['C'] ++ "7".toList))))) ∧
    ((['C'] ++ "12".toList) ++ "  ".toList).length = 5 ∧
    (5 : Nat) ∈ ({ defaultCfg with locationMargins := [5] } : Config).locationMargins ∧
    getLocationText { defaultCfg with locationMargins := [5] }
      ("C12  LOBBY  C7".toList) = none :=
  ⟨by decide, by decide, by decide, by decide, by rfl⟩

/-- C6 amended: for every entirely upper-case line of the shape — optional
single letter restricted to `A` or `B`, digits, a whitespace gap of length
at least two, a middle text that contains no newline and neither starts
nor ends in whitespace, another gap of length at least two, then optional
`A` or `B` and digits at the end — if the left-gap length is a member of
the configured location margins, the Location test accepts the line with
the middle as text and the left-gap length as margin. -/
theorem c6_location_shape (cfg : Config) (l1 d1 s1 m s2 l2 d2 : List Char)
    (hl1 : l1 = [] ∨ l1 = ['A'] ∨ l1 = ['B'])
    (hd1 : d1 ≠ []) (hd1d : ∀ c ∈ d1, pyIsDigit c = true)
    (hs1 : 2 ≤ s1.length) (hs1s : ∀ c ∈ s1, pyIsSpace c = true)
    (hm : m ≠ []) (hmnl : ∀ c ∈ m, c ≠ '\n')
    (hmh : ∀ c, m.head? = some c → pyIsSpace c = false)
    (hml : ∀ c, m.getLast? = some c → pyIsSpace c = false)
    (hl2 : l2 = [] ∨ l2 = ['A'] ∨ l2 = ['B'])
    (hd2 : d2 ≠ []) (hd2d : ∀ c ∈ d2, pyIsDigit c = true)
    (hs2 : 2 ≤ s2.length) (hs2s : ∀ c ∈ s2, pyIsSpace c = true)
    (hupper : pyIsUpperList (l1 ++ (d1 ++ (s1 ++ (m ++ (s2 ++ (l2 ++ d2)))))) = true)
    (hmem : ((l1 ++ d1) ++ s1).length ∈ cfg.locationMargins) :
    getLocationText cfg (l1 ++ (d1 ++ (s1 ++ (m ++ (s2 ++ (l2 ++ d2)))))) =
      some (m, ((l1 ++ d1) ++ s1).length) := by
  unfold getLocationText
  rw [hupper]
  rw [if_neg (by simp)]
  rw [locGroups_shape hl1 hd1 hd1d hs1 hs1s hm hmnl hmh hml hl2 hd2 hd2d hs2 hs2s]
  dsimp only
  rw [if_pos hmem, pyStrip_eq_self hmh hml]

/-- Witness for C6 amended at the line `12      INT HALL  34` under the
default configuration, whose left gap has length 8. -/
theorem c6_witness :
    getLocationText defaultCfg
        (([] : List Char) ++ ("12".toList ++ ("      ".toList ++
          ("INT HALL".toList ++ ("  ".toList ++ (([] : List Char) ++ "34".toList)))))) =
      some ("INT HALL".toList, ((([] : List Char) ++ "12".toList) ++ "      ".toList).length) :=
  c6_location_shape defaultCfg [] ("12".toList) ("      ".toList) ("INT HALL".toList)
    ("  ".toList) [] ("34".toList)
    (Or.inl rfl) (by decide) (by decide) (by decide) (by decide) (by decide) (by decide)
    (by decide) (by decide) (Or.inl rfl) (by decide) (by decide) (by decide) (by decide)
    (by decide) (by decide)

end KBAC
